import Mathlib

/-!
# Distributed radix-2 DIT FFT (`fft_parallel.cpp`)

A shallow embedding of `src/fft_parallel.cpp` and a verification of its
bit-reversal step, butterfly round loop and datatype registration.

Modelling conventions.

* `int` values that are ranks, strides, counters and array indices are
  natural numbers; every such value of the program stays far below `2^31`.
  The two index expressions of the worker (`rank - div * is_odd`,
  `rank + div * is_even`) are computed over `Int` and bounds-checked by
  `readAt`.
* `float`/`double` arithmetic is read over an arbitrary field `R`; the
  `<cmath>` items `M_PI`, `std::cos`, `std::sin` are a parameter `CMath R`.
  The theorems about numeric results instantiate `R := ℝ` with
  `Real.pi`, `Real.cos`, `Real.sin`.
* `std::log2f` followed by the conversion to `int` is `Nat.log 2`, which is
  exact at `2^k` and `2^k + 1` (see `log2f`).
* `reverseBits` is embedded twice: over the natural numbers (`reverseBits`,
  used by the program) and with the 32-bit `int` arithmetic of the source
  (`reverseBitsInt32`); the two agree on every width up to 31.
* In `showResults` the expression `img - 2 * img` is a 32-bit float
  computation whose product can overflow to an infinity (`imgMinusTwiceImg`).
* An array read outside the buffer (undefined behaviour in C++) makes the
  embedded function return `none`.
* The processes run in lock step: every worker computes from the sequence of
  the previous broadcast, every message carries one `Complex` value
  unchanged, and the process count equals `input_size`.
* The inverse transform of the round-trip property is not in the source; it
  is modelled from the spec (`inverseTransform`).
-/

namespace FftParallel

/-! ## Data model -/

/-- The `struct Complex` of the source: two scalars, `real` then `img`. -/
structure Complex (R : Type) where
  real : R
  img : R
  deriving DecidableEq

/-- The items of `<cmath>` used by the worker computation. -/
structure CMath (R : Type) where
  M_PI : R
  cos : R → R
  sin : R → R

/-- A value-initialised buffer `Complex buf[n]{}`. -/
def zeroBuffer {R : Type} [Zero R] (n : Nat) : List (Complex R) :=
  List.replicate n ⟨0, 0⟩

/-- Array read `buf[i]` with a signed index: `none` outside the buffer. -/
def readAt {α : Type} (buf : List α) (i : Int) : Option α :=
  if i < 0 then none else buf[i.toNat]?

/-- The truncation to `int` of `std::log2f(n)` for `n ≥ 1`, taken as
`⌊log₂ n⌋`. The two agree at `n = 2^k` and `n = 2^k + 1`, the arguments of every
run on `2^k` samples, and for small `n`. For large `n` just below a power of
two (from `n = 2^21 - 1` on) the float result of `std::log2f` rounds up to the
next integer, which this definition does not follow; no theorem about the
number of rounds is stated for such sizes. -/
def log2f (n : Nat) : Nat := Nat.log 2 n

/-! ## `reverseBits` -/

/-- One iteration of the loop of `reverseBits`:
`reverse_number |= ((number >> i) & 1) << (bit_range - 1 - i)`. -/
def reverseBitsStep (number bit_range : Nat) (reverse_number i : Nat) : Nat :=
  reverse_number ||| (((number >>> i) &&& 1) <<< (bit_range - 1 - i))

/-- The function `reverseBits(number, bit_range)` over the natural numbers:
the loop runs over `i = 0 .. bit_range - 1` starting from
`reverse_number = 0`. It is the `int` function of the source for
`0 ≤ number < 2^31` and `bit_range ≤ 31` (`reverseBitsInt32_eq_reverseBits`),
which covers every call the program makes. -/
def reverseBits (number bit_range : Nat) : Nat :=
  (List.range bit_range).foldl (reverseBitsStep number bit_range) 0

/-! ## `reverseBits` on 32-bit `int`

The source computes `reverseBits` on `int`. The definitions below follow the
32-bit two's-complement arithmetic of the source (C++20): a shift whose count
is outside `[0, 32)` is undefined (`none`), a left shift wraps modulo `2^32`,
a right shift is arithmetic. `reverseBitsInt32_eq_reverseBits` shows that
`reverseBits` above is this function whenever `0 ≤ number < 2^31` and
`bit_range ≤ 31`. -/

/-- The 32-bit two's-complement `int` congruent to `z` modulo `2^32`. -/
def wrapInt32 (z : Int) : Int := (z + 2 ^ 31) % 2 ^ 32 - 2 ^ 31

/-- The expression `a << n` on `int`. -/
def shiftLeftInt32 (a n : Int) : Option Int :=
  if 0 ≤ n ∧ n < 32 then some (wrapInt32 (a * 2 ^ n.toNat)) else none

/-- The expression `a >> n` on `int`. -/
def shiftRightInt32 (a n : Int) : Option Int :=
  if 0 ≤ n ∧ n < 32 then some (a / 2 ^ n.toNat) else none

/-- The expression `a | b` on `int`: bitwise or of the two 32-bit patterns. -/
def orInt32 (a b : Int) : Int :=
  wrapInt32 (((a % 2 ^ 32).toNat ||| (b % 2 ^ 32).toNat : Nat) : Int)

/-- One iteration of the loop of `reverseBits` on `int`:
`reverse_number |= ((number >> i) & 1) << (bit_range - 1 - i)`; the low bit
`x & 1` of an `int` is `x % 2`. -/
def reverseBitsStepInt32 (number bit_range reverse_number : Int) (i : Nat) : Option Int := do
  let shifted ← shiftRightInt32 number (i : Int)
  let bit ← shiftLeftInt32 (shifted % 2) (bit_range - 1 - (i : Int))
  pure (orInt32 reverse_number bit)

/-- The function `reverseBits(number, bit_range)` on `int`: the loop runs over
`i = 0 .. bit_range - 1` (not at all when `bit_range ≤ 0`) starting from
`reverse_number = 0`. -/
def reverseBitsInt32 (number bit_range : Int) : Option Int :=
  (List.range bit_range.toNat).foldlM (reverseBitsStepInt32 number bit_range) 0

/-! ## Bit-reversal step of `main` (coordinator only) -/

/-- Lines 60-65 of `main`: for `i = 1 .. input_size - 1`,
`seq[i].real = input_values[reverseBits(i - 1, max_bit_width) + 1].real` and
`seq[i].img = 0.0`, with `max_bit_width = log2f(input_size)`. -/
def bitReversalStep {R : Type} [Zero R] (input_values : List (Complex R))
    (input_size : Nat) (seq : List (Complex R)) : Option (List (Complex R)) :=
  let max_bit_width := log2f input_size
  (List.range' 1 (input_size - 1)).foldlM
    (fun seq i => do
      let v ← input_values[reverseBits (i - 1) max_bit_width + 1]?
      pure (seq.set i ⟨v.real, 0⟩))
    seq

/-! ## Worker computation -/

/-- `is_even = ((rank + div - 1) / div) % 2`. -/
def is_even (rank div : Nat) : Nat := ((rank + div - 1) / div) % 2

/-- `is_odd = 1 - is_even`. -/
def is_odd (rank div : Nat) : Nat := 1 - is_even rank div

/-- `butterfly_index = M_PI * ((rank - 1) % (div * 2)) / div`. -/
def butterfly_index {R : Type} [Field R] (M : CMath R) (rank div : Nat) : R :=
  M.M_PI * (((rank - 1) % (div * 2) : Nat) : R) / (div : R)

/-- The index `rank - (div * is_odd)` read by a worker. -/
def sameSideIndex (rank div : Nat) : Int :=
  (rank : Int) - ((div : Int) * (is_odd rank div : Int))

/-- The index `rank + (div * is_even)` read by a worker. -/
def partnerIndex (rank div : Nat) : Int :=
  (rank : Int) + ((div : Int) * (is_even rank div : Int))

/-- Lines 80-90 of `main`: the value `temp[rank]` a worker computes from its
replica `seq` of the sequence. -/
def workerCompute {R : Type} [Field R] (M : CMath R) (seq : List (Complex R))
    (div rank : Nat) : Option (Complex R) := do
  let same ← readAt seq (sameSideIndex rank div)
  let partner ← readAt seq (partnerIndex rank div)
  let butterfly_index := butterfly_index M rank div
  pure
    ⟨same.real + (M.cos butterfly_index * partner.real)
        + (M.sin butterfly_index * partner.img),
     same.img + (M.cos butterfly_index * partner.img)
        - (M.sin butterfly_index * partner.real)⟩

/-! ## One round and the round loop -/

/-- Lines 98-112: the coordinator receives, for `i = 1 .. input_size - 1`, the
value sent by rank `i` into `temp[i]`. -/
def receiveTemps {R : Type} [Field R] (M : CMath R) (input_size div : Nat)
    (seq temp : List (Complex R)) : Option (List (Complex R)) :=
  (List.range' 1 (input_size - 1)).foldlM
    (fun temp i => do
      let v ← workerCompute M seq div i
      pure (temp.set i v))
    temp

/-- Lines 120-124: the coordinator copies `temp[i]` to `seq[i]` for
`i = 1 .. input_size - 1`. -/
def copyTemps {R : Type} (input_size : Nat)
    (seq temp : List (Complex R)) : Option (List (Complex R)) :=
  (List.range' 1 (input_size - 1)).foldlM
    (fun seq i => do
      let v ← temp[i]?
      pure (seq.set i ⟨v.real, v.img⟩))
    seq

/-- The loop variables of the round loop: the stride `div` and the
remaining-round counter `key`. -/
structure LoopVars where
  div : Nat
  key : Nat
  deriving DecidableEq

/-- The loop condition `key > 0`. -/
def loopGuard (v : LoopVars) : Bool := decide (0 < v.key)

/-- The loop increment `key--, div *= 2`. -/
def loopIncrement (v : LoopVars) : LoopVars := ⟨v.div * 2, v.key - 1⟩

/-- The state of the round loop: the loop variables and the coordinator's
buffers `seq` (broadcast to every process at the end of each round) and
`temp`. -/
structure LoopState (R : Type) where
  vars : LoopVars
  seq : List (Complex R)
  temp : List (Complex R)

/-- One pass through the loop body (lines 75-128): the workers compute and
send, the coordinator receives into `temp` and, after the barrier, copies
`temp` over `seq`, which is then broadcast. Returns the new `(seq, temp)`. -/
def loopBody {R : Type} [Field R] (M : CMath R) (input_size : Nat)
    (st : LoopState R) : Option (List (Complex R) × List (Complex R)) := do
  let temp ← receiveTemps M input_size st.vars.div st.seq st.temp
  let seq ← copyTemps input_size st.seq temp
  pure (seq, temp)

/-- The loop body followed by the loop increment. -/
def loopStep {R : Type} [Field R] (M : CMath R) (input_size : Nat)
    (st : LoopState R) : Option (LoopState R) :=
  (loopBody M input_size st).map fun p => ⟨loopIncrement st.vars, p.1, p.2⟩

/-- The loop `for (div = 1, key = ...; key > 0; key--, div *= 2)`, run from
the state `st` until the guard fails. -/
def roundLoop {R : Type} [Field R] (M : CMath R) (input_size : Nat)
    (st : LoopState R) : Option (LoopState R) :=
  if hguard : loopGuard st.vars = true then
    match loopBody M input_size st with
    | none => none
    | some p => roundLoop M input_size ⟨loopIncrement st.vars, p.1, p.2⟩
  else some st
termination_by st.vars.key
decreasing_by
  simp_wf
  simp only [loopGuard, decide_eq_true_eq] at hguard
  simp only [loopIncrement]
  omega

/-! ## The program -/

/-- The loop variables at loop entry: `div = 1`,
`key = log2f(input_size - 1)`. -/
def initialVars (input_size : Nat) : LoopVars := ⟨1, log2f (input_size - 1)⟩

/-- The computation of `main` as seen on the coordinator, from the list
returned by `getInputValues` (sentinel first) to the final sequence handed to
`showResults`. `input_size` is the length of that list; `seq` and `temp` start
value-initialised. -/
def main {R : Type} [Field R] (M : CMath R) (input_values : List (Complex R)) :
    Option (List (Complex R)) := do
  let input_size := input_values.length
  let seq ← bitReversalStep input_values input_size (zeroBuffer input_size)
  let st ← roundLoop M input_size ⟨initialVars input_size, seq, zeroBuffer input_size⟩
  pure st.seq

/-! ## Registration of the message datatype -/

/-- The predefined MPI datatypes named in the source. -/
inductive MPI_Datatype where
  | MPI_FLOAT
  | MPI_INT
  deriving DecidableEq

/-- The arguments of a call `MPI_Type_create_struct(count,
array_of_blocklengths, array_of_displacements, array_of_types, &new_type)`.
By the MPI standard block `b` consists of `array_of_blocklengths[b]`
consecutive elements of type `array_of_types[b]`, the first one at byte
displacement `array_of_displacements[b]`. -/
structure StructTypeCall where
  count : Nat
  array_of_blocklengths : List Nat
  array_of_displacements : List Nat
  array_of_types : List MPI_Datatype
  deriving DecidableEq

/-- The value of `sizeof(float)`: a 32-bit float, as the hard-coded
displacement `4` of the source presumes. -/
def sizeofFloat : Nat := 4

/-- The value of `sizeof(Complex)`: two `float` members without padding. -/
def sizeofComplex : Nat := 2 * sizeofFloat

/-- Size in bytes of one element of a predefined datatype. -/
def MPI_Datatype.size : MPI_Datatype → Nat
  | .MPI_FLOAT => 4
  | .MPI_INT => 4

/-- The function `registerMpiDatatype`: it forwards its four arguments,
unchanged and in order, to `MPI_Type_create_struct` and commits the result.
The embedding returns the call it makes. -/
def registerMpiDatatype (num_of_values : Nat) (sizes_of_values : List Nat)
    (strides_of_values : List Nat) (types_of_values : List MPI_Datatype) :
    StructTypeCall :=
  ⟨num_of_values, sizes_of_values, strides_of_values, types_of_values⟩

/-- The value `initGlobals` assigns to `global::MPI_COMPLEX_T`:
`registerMpiDatatype(sizeof(Complex) / sizeof(float),
{sizeof(float), sizeof(float)}, {0, 4}, {MPI_FLOAT, MPI_FLOAT})`. -/
def initGlobals_MPI_COMPLEX_T : StructTypeCall :=
  registerMpiDatatype (sizeofComplex / sizeofFloat) [sizeofFloat, sizeofFloat] [0, 4]
    [.MPI_FLOAT, .MPI_FLOAT]

/-- The type map (element type and byte offset of every element, in order)
that the MPI standard assigns to a struct datatype built from predefined
types. -/
def StructTypeCall.typeMap (c : StructTypeCall) : List (MPI_Datatype × Nat) :=
  ((c.array_of_blocklengths.zip (c.array_of_displacements.zip c.array_of_types)).take
      c.count).flatMap
    fun b => (List.range b.1).map fun j => (b.2.2, b.2.1 + j * b.2.2.size)

/-- The type map of `struct Complex`: member `real` at offset 0 and member
`img` at offset `sizeof(float)`. -/
def complexLayout : List (MPI_Datatype × Nat) :=
  [(.MPI_FLOAT, 0), (.MPI_FLOAT, sizeofFloat)]

/-! ## Reading the input (`getInputValues`) -/

/-- One whitespace-delimited field of the input file as `operator>>` for
`float` meets it: a number, or text on which the extraction fails. The end of
the file is the end of the list of fields. -/
inductive StreamField (R : Type) where
  | number (value : R)
  | malformed
  deriving DecidableEq

/-- The loop `while(file >> real >> img) result.emplace_back(real, img)`:
each pass extracts two numbers and appends one sample; the loop ends at the
first extraction that fails. -/
def readSamples {R : Type} : List (StreamField R) → List (Complex R) → List (Complex R)
  | .number real :: .number img :: rest, result => readSamples rest (result ++ [⟨real, img⟩])
  | _, result => result

/-- What `getInputValues` leaves on one process: the returned vector,
`global::input_size` afterwards, and whether the process entered
`MPI_Bcast(&global::input_size, 1, MPI_INT, 0, MPI_COMM_WORLD)`. -/
structure InputValues (R : Type) where
  result : List (Complex R)
  input_size : Nat
  broadcast : Bool
  deriving DecidableEq

/-- The function `getInputValues` on the process `rank`. `file` is `none`
when the file cannot be opened and the list of its fields otherwise;
`input_size` is `global::input_size` at the call (0 at program start);
`root_value` is the value the broadcast delivers to a non-root process. On the
coordinator the branch `return {}` leaves the function before the broadcast. -/
def getInputValues {R : Type} [Zero R] (rank : Nat) (file : Option (List (StreamField R)))
    (input_size root_value : Nat) : InputValues R :=
  if rank = 0 then
    match file with
    | none => ⟨[], input_size, false⟩
    | some fields =>
      let result := readSamples fields [⟨0, 0⟩]
      ⟨result, result.length, true⟩
  else ⟨[], root_value, true⟩

/-- The fields of a file that holds the given `real img` pairs. -/
def pairFields {R : Type} (pairs : List (R × R)) : List (StreamField R) :=
  pairs.flatMap fun p => [.number p.1, .number p.2]

/-! ## Reporting the result (`showResults`) -/

/-- The value of `FLT_MAX`, the largest finite 32-bit float,
`(2 - 2^-23) * 2^127`. -/
def FLT_MAX {R : Type} [LinearOrderedField R] : R := 340282346638528859811704183484516925440

/-- The result of a 32-bit float operation that involves no rounding: a finite
value or an infinity. -/
inductive FloatResult (R : Type) where
  | finite (value : R)
  | posInf
  | negInf
  deriving DecidableEq

/-- The float product `2 * img` for a finite float `img`: doubling a float is
exact, unless the double exceeds `FLT_MAX` in magnitude and the product is an
infinity. -/
def floatDouble {R : Type} [LinearOrderedField R] (img : R) : FloatResult R :=
  if FLT_MAX < 2 * img then .posInf
  else if 2 * img < -FLT_MAX then .negInf
  else .finite (2 * img)

/-- The float expression `img - 2 * img` of line 233 for a finite float `img`:
when `2 * img` is finite the difference is the float `-img`, so nothing is
rounded; when `2 * img` is an infinity the difference is the opposite
infinity. -/
def imgMinusTwiceImg {R : Type} [LinearOrderedField R] (img : R) : FloatResult R :=
  match floatDouble img with
  | .finite twice => .finite (img - twice)
  | .posInf => .negInf
  | .negInf => .posInf

/-- One `printf` call of `showResults`, with the values passed to it. -/
inductive Printed (R : Type) where
  | newline
  | label (index : Nat) (real : R)
  | plusJ (img : R)
  | minusJ (value : FloatResult R)
  | totalTime (ms : R)
  deriving DecidableEq

/-- The body of the loop of `showResults` for index `i`, on a sequence of
finite floats: `printf("X[%d] : %f", i - 1, seq[i].real)` followed by
`printf("+j%f\n", seq[i].img)` when `seq[i].img >= 0` and by
`printf("-j%f\n", seq[i].img - 2 * seq[i].img)` otherwise. -/
def showEntry {R : Type} [LinearOrderedField R] (seq : List (Complex R))
    (out : List (Printed R)) (i : Nat) : Option (List (Printed R)) := do
  let z ← seq[i]?
  let out := out ++ [.label (i - 1) z.real]
  if z.img ≥ 0 then pure (out ++ [.plusJ z.img])
  else pure (out ++ [.minusJ (imgMinusTwiceImg z.img)])

/-- The function `showResults` on the process `rank`: the list of its
`printf` calls in order. -/
def showResults {R : Type} [LinearOrderedField R] (rank input_size : Nat)
    (seq : List (Complex R)) (starttime endtime : R) : Option (List (Printed R)) :=
  if 0 = rank then do
    let out ← (List.range' 1 (input_size - 1)).foldlM (showEntry seq) [.newline]
    pure (out ++ [.newline, .totalTime ((endtime - starttime) * 1000), .newline])
  else some []

/-! ## Inverse transform (for the round-trip property) -/

/-- Modelled from the spec: the source has no inverse transform; the spec
describes it as the same computation with conjugated twiddle factors. This
is the `<cmath>` parameter with which the worker's twiddle factor
`cos θ - i sin θ` becomes its conjugate `cos θ + i sin θ`. -/
def conjugateTwiddle {R : Type} [Neg R] (M : CMath R) : CMath R :=
  ⟨M.M_PI, M.cos, fun θ => -M.sin θ⟩

/-- Modelled from the spec: the bit-reversal reordering at the start of the
inverse transform, which is not in the source. It is the loop of
`bitReversalStep` applied to a complex spectrum, so it keeps both components
of every entry. -/
def bitReversalPermute {R : Type} (values : List (Complex R)) (input_size : Nat)
    (seq : List (Complex R)) : Option (List (Complex R)) :=
  let max_bit_width := log2f input_size
  (List.range' 1 (input_size - 1)).foldlM
    (fun seq i => do
      let v ← values[reverseBits (i - 1) max_bit_width + 1]?
      pure (seq.set i ⟨v.real, v.img⟩))
    seq

/-- Modelled from the spec: the inverse transform of the round-trip property
("conjugate twiddle, scale by `1/(N-1)`"), which is not in the source: the
bit-reversal reordering, the round loop of the program run with conjugated
twiddle factors, and the division of every entry by `N - 1`. -/
def inverseTransform {R : Type} [Field R] (M : CMath R) (spectrum : List (Complex R)) :
    Option (List (Complex R)) := do
  let input_size := spectrum.length
  let seq ← bitReversalPermute spectrum input_size (zeroBuffer input_size)
  let st ← roundLoop (conjugateTwiddle M) input_size
    ⟨initialVars input_size, seq, zeroBuffer input_size⟩
  pure (st.seq.map fun z =>
    ⟨z.real / ((input_size - 1 : Nat) : R), z.img / ((input_size - 1 : Nat) : R)⟩)

/-! ## Auxiliary definitions used by the verification -/

/-- The buffer `init` after the assignments `buf[i] = g i` for
`i = s .. s + m - 1`, in increasing order of `i`. -/
def setRange {α : Type} (g : Nat → α) (s m : Nat) (init : List α) : List α :=
  (List.range' s m).foldl (fun acc i => acc.set i (g i)) init

/-- The value `workerCompute` yields when both of its reads are inside the
buffer. -/
def workerValue {R : Type} [Field R] (M : CMath R) (seq : List (Complex R))
    (div rank : Nat) : Complex R :=
  let same := seq.getD (sameSideIndex rank div).toNat ⟨0, 0⟩
  let partner := seq.getD (partnerIndex rank div).toNat ⟨0, 0⟩
  ⟨same.real + (M.cos (butterfly_index M rank div) * partner.real)
      + (M.sin (butterfly_index M rank div) * partner.img),
   same.img + (M.cos (butterfly_index M rank div) * partner.img)
      - (M.sin (butterfly_index M rank div) * partner.real)⟩

/-- One butterfly stage with stride `D` on a sequence indexed from 0, with
twiddle factor `tw t` for the position `t = j % (D * 2)` inside the group:
the upper half of a group combines `a j` with `a (j + D)`, the lower half
`a (j - D)` with `a j`. -/
def butterflyStage {A : Type} [Add A] [Mul A] (tw : Nat → A) (D : Nat) (a : Nat → A)
    (j : Nat) : A :=
  if j % (D * 2) < D then a j + tw (j % (D * 2)) * a (j + D)
  else a (j - D) + tw (j % (D * 2)) * a j

/-- The `2^s`-point transform, with kernel `ker s`, of the decimated
subsequence of `x` that block `b` of stage `s` holds in a `2^k`-point run. -/
def blockSum {A : Type} [CommSemiring A] (ker : Nat → Nat → Nat → A) (x : Nat → A)
    (k s b t : Nat) : A :=
  ∑ u in Finset.range (2 ^ s), x (u * 2 ^ (k - s) + reverseBits b (k - s)) * ker s t u

/-- A sample as a complex number. -/
def toC (z : Complex ℝ) : ℂ := ⟨z.real, z.img⟩

/-- Data slot `j + 1` of a sequence as a complex number (0 outside). -/
def slotC (seq : List (Complex ℝ)) (j : Nat) : ℂ := toC (seq.getD (j + 1) ⟨0, 0⟩)

/-- The twiddle factor `cos θ - i sin θ` the worker computation applies. -/
def twiddleC (M : CMath ℝ) (θ : ℝ) : ℂ := ⟨M.cos θ, -M.sin θ⟩

/-! # Verification -/

/-! ## `reverseBits` -/

theorem testBit_one_eq (m : Nat) : Nat.testBit 1 m = decide (m = 0) := by
  cases m with
  | zero => rfl
  | succ m =>
    have : Nat.testBit 1 (m + 1) = false := by
      rw [Nat.testBit_add_one]; simp
    simp [this]

theorem testBit_singleBit (x i s j : Nat) :
    ((((x >>> i) &&& 1) <<< s)).testBit j = (decide (j = s) && x.testBit i) := by
  rw [Nat.testBit_shiftLeft, Nat.testBit_and, Nat.testBit_shiftRight, testBit_one_eq]
  by_cases h : j = s
  · subst h; simp
  · by_cases h2 : s ≤ j
    · have : j - s ≠ 0 := by omega
      simp [h, this]
    · simp [h, h2]

theorem testBit_reverseBits_loop (x w j : Nat) :
    ∀ n, n ≤ w →
      ((List.range n).foldl (reverseBitsStep x w) 0).testBit j
        = (decide (j < w ∧ w - 1 - j < n) && x.testBit (w - 1 - j)) := by
  intro n
  induction n with
  | zero => intro _; simp
  | succ n ih =>
    intro hn
    rw [List.range_succ, List.foldl_append, List.foldl_cons, List.foldl_nil,
      reverseBitsStep, Nat.testBit_or, ih (by omega), testBit_singleBit]
    by_cases h : j = w - 1 - n
    · have h1 : w - 1 - j = n := by omega
      have h2 : j < w := by omega
      have e1 : decide (j < w ∧ n < n) = false := by simp
      have e2 : decide (j = w - 1 - n) = true := by simp [h]
      have e3 : decide (j < w ∧ n < n + 1) = true := by simp [h2]
      rw [h1, e1, e2, e3]
      simp
    · by_cases h2 : j < w
      · have h3 : w - 1 - j ≠ n := by omega
        have h4 : (w - 1 - j < n + 1) ↔ (w - 1 - j < n) := by omega
        simp [h, h2, h4]
      · simp [h, h2]

theorem testBit_reverseBits (x w j : Nat) :
    (reverseBits x w).testBit j = (decide (j < w) && x.testBit (w - 1 - j)) := by
  unfold reverseBits
  rw [testBit_reverseBits_loop x w j w (Nat.le_refl w)]
  by_cases h : j < w
  · have : w - 1 - j < w := by omega
    simp [h, this]
  · simp [h]

theorem reverseBits_lt (x w : Nat) : reverseBits x w < 2 ^ w := by
  apply Nat.lt_pow_two_of_testBit
  intro i hi
  rw [testBit_reverseBits]
  have : ¬ i < w := by omega
  simp [this]

theorem reverseBits_mod (x w : Nat) : reverseBits x w = reverseBits (x % 2 ^ w) w := by
  apply Nat.eq_of_testBit_eq
  intro j
  rw [testBit_reverseBits, testBit_reverseBits, Nat.testBit_mod_two_pow]
  by_cases h : j < w
  · have : w - 1 - j < w := by omega
    simp [h, this]
  · simp [h]

theorem reverseBits_reverseBits (x w : Nat) (hx : x < 2 ^ w) :
    reverseBits (reverseBits x w) w = x := by
  apply Nat.eq_of_testBit_eq
  intro j
  rw [testBit_reverseBits, testBit_reverseBits]
  by_cases h : j < w
  · have h1 : w - 1 - j < w := by omega
    have h2 : w - 1 - (w - 1 - j) = j := by omega
    simp [h, h1, h2]
  · have : w ≤ j := by omega
    have h3 : x.testBit j = false :=
      Nat.testBit_lt_two_pow (Nat.lt_of_lt_of_le hx (Nat.pow_le_pow_right (by decide) this))
    simp [h, h3]

theorem reverseBits_zero_width (x : Nat) : reverseBits x 0 = 0 := rfl

theorem reverseBits_succ (b e w : Nat) (he : e < 2) :
    reverseBits (2 * b + e) (w + 1) = e * 2 ^ w + reverseBits b w := by
  apply Nat.eq_of_testBit_eq
  intro j
  rw [testBit_reverseBits, Nat.mul_comm e]
  have hlt : reverseBits b w < 2 ^ w := reverseBits_lt b w
  rw [Nat.testBit_mul_pow_two_add e hlt, testBit_reverseBits]
  by_cases h1 : j < w
  · have h2 : j < w + 1 := by omega
    have h3 : w + 1 - 1 - j = (w - 1 - j) + 1 := by omega
    have h4 : (2 * b + e) / 2 = b := by omega
    simp only [h1, h2, h3, Nat.testBit_add_one, h4, if_true]
  · by_cases h5 : j = w
    · subst h5
      have h6 : j + 1 - 1 - j = 0 := by omega
      have he' : e = 0 ∨ e = 1 := by omega
      rcases he' with rfl | rfl
      · simp [h6]
      · simp [h6]; omega
    · have h8 : ¬ j < w + 1 := by omega
      have h9 : Nat.testBit e (j - w) = false := by
        apply Nat.testBit_lt_two_pow
        have : 1 ≤ j - w := by omega
        calc e < 2 := he
          _ = 2 ^ 1 := rfl
          _ ≤ 2 ^ (j - w) := Nat.pow_le_pow_right (by decide) this
      simp [h1, h8, h9]

/-! ## Loops that assign a range of slots -/

theorem length_setRange {α : Type} (g : Nat → α) :
    ∀ (m s : Nat) (init : List α), (setRange g s m init).length = init.length := by
  intro m
  induction m with
  | zero => intro s init; rfl
  | succ m ih =>
    intro s init
    have h := ih (s + 1) (init.set s (g s))
    simp only [setRange, List.range'_succ, List.foldl_cons] at h ⊢
    rw [h, List.length_set]

theorem getElem?_setRange {α : Type} (g : Nat → α) :
    ∀ (m s : Nat) (init : List α) (j : Nat),
      (setRange g s m init)[j]? =
        if s ≤ j ∧ j < s + m ∧ j < init.length then some (g j) else init[j]? := by
  intro m
  induction m with
  | zero =>
    intro s init j
    have : ¬ (s ≤ j ∧ j < s + 0 ∧ j < init.length) := by omega
    rw [if_neg this]
    rfl
  | succ m ih =>
    intro s init j
    have h := ih (s + 1) (init.set s (g s)) j
    simp only [setRange, List.range'_succ, List.foldl_cons] at h ⊢
    rw [h, List.length_set, List.getElem?_set]
    by_cases h1 : s = j
    · subst h1
      by_cases h2 : s < init.length
      · have e1 : ¬ (s + 1 ≤ s ∧ s < s + 1 + m ∧ s < init.length) := by omega
        have e2 : (s ≤ s ∧ s < s + (m + 1) ∧ s < init.length) := by omega
        simp [e1, e2, h2]
      · have e1 : ¬ (s + 1 ≤ s ∧ s < s + 1 + m ∧ s < init.length) := by omega
        have e2 : ¬ (s ≤ s ∧ s < s + (m + 1) ∧ s < init.length) := by omega
        have e3 : init[s]? = none := List.getElem?_eq_none (by omega)
        simp [e1, e2, h2, e3]
    · have e : (s + 1 ≤ j ∧ j < s + 1 + m ∧ j < init.length)
          ↔ (s ≤ j ∧ j < s + (m + 1) ∧ j < init.length) := by omega
      simp only [e, h1, if_false]

theorem foldlM_set_some {α : Type} (f : Nat → Option α) (g : Nat → α) :
    ∀ (m s : Nat) (init : List α),
      (∀ i, s ≤ i → i < s + m → f i = some (g i)) →
      (List.range' s m).foldlM
          (fun acc i => (f i).bind fun v => some (acc.set i v)) init
        = some (setRange g s m init) := by
  intro m
  induction m with
  | zero => intro s init _; rfl
  | succ m ih =>
    intro s init hf
    have h0 : f s = some (g s) := hf s (Nat.le_refl s) (by omega)
    have h := ih (s + 1) (init.set s (g s)) (fun i h1 h2 => hf i (by omega) (by omega))
    simp only [setRange, List.range'_succ, List.foldl_cons, List.foldlM_cons, h0,
      Option.some_bind, Option.bind_eq_bind] at h ⊢
    exact h

theorem foldlM_set_defined {α : Type} (f : Nat → Option α) :
    ∀ (m s : Nat) (init out : List α),
      (List.range' s m).foldlM
          (fun acc i => (f i).bind fun v => some (acc.set i v)) init = some out →
      ∀ i, s ≤ i → i < s + m → (f i).isSome = true := by
  intro m
  induction m with
  | zero => intro s init out _ i h1 h2; omega
  | succ m ih =>
    intro s init out h i h1 h2
    simp only [List.range'_succ, List.foldlM_cons, Option.bind_eq_bind] at h
    cases hfs : f s with
    | none => simp [hfs] at h
    | some v =>
      simp only [hfs, Option.some_bind] at h
      by_cases hi : i = s
      · subst hi; simp [hfs]
      · exact ih (s + 1) _ out h i (by omega) (by omega)

/-- C2: `reverseBits` is an involution on `w`-bit values: for every width `w`
and every `x` with `x < 2^w`, `reverseBits (reverseBits x w) w = x`. -/
theorem reverseBits_involution (w x : Nat) (hx : x < 2 ^ w) :
    reverseBits (reverseBits x w) w = x :=
  reverseBits_reverseBits x w hx

theorem reverseBits_involution_witness :
    6 < 2 ^ 3 ∧ reverseBits (reverseBits 6 3) 3 = 6 :=
  ⟨by decide, reverseBits_involution 3 6 (by decide)⟩

/-! ## `reverseBits` on 32-bit `int` -/

theorem wrapInt32_of_small (a : Nat) (ha : a < 2 ^ 31) : wrapInt32 (a : Int) = (a : Int) := by
  unfold wrapInt32
  have h : ((a : Int)) < 2 ^ 31 := by exact_mod_cast ha
  omega

theorem orInt32_natCast (a b : Nat) (ha : a < 2 ^ 31) (hb : b < 2 ^ 31) :
    orInt32 (a : Int) (b : Int) = ((a ||| b : Nat) : Int) := by
  unfold orInt32
  have ha' : ((a : Int) % 2 ^ 32).toNat = a := by
    have h : ((a : Int)) < 2 ^ 31 := by exact_mod_cast ha
    omega
  have hb' : ((b : Int) % 2 ^ 32).toNat = b := by
    have h : ((b : Int)) < 2 ^ 31 := by exact_mod_cast hb
    omega
  rw [ha', hb']
  exact wrapInt32_of_small _ (Nat.or_lt_two_pow ha hb)

theorem shiftRightInt32_natCast (x i : Nat) (hi : i < 32) :
    shiftRightInt32 (x : Int) (i : Int) = some ((x >>> i : Nat) : Int) := by
  unfold shiftRightInt32
  rw [if_pos ⟨by omega, by omega⟩, Int.toNat_ofNat, Nat.shiftRight_eq_div_pow]
  push_cast
  rfl

theorem shiftLeftInt32_bit (b n : Nat) (hb : b < 2) (hn : n ≤ 30) :
    shiftLeftInt32 (b : Int) (n : Int) = some ((b <<< n : Nat) : Int)
      ∧ b <<< n < 2 ^ 31 := by
  have hlt : b <<< n < 2 ^ 31 := by
    rw [Nat.shiftLeft_eq]
    calc b * 2 ^ n ≤ 1 * 2 ^ n := Nat.mul_le_mul_right _ (by omega)
      _ = 2 ^ n := Nat.one_mul _
      _ ≤ 2 ^ 30 := Nat.pow_le_pow_right (by decide) hn
      _ < 2 ^ 31 := by decide
  refine ⟨?_, hlt⟩
  unfold shiftLeftInt32
  rw [if_pos ⟨by omega, by omega⟩, Int.toNat_ofNat]
  have h : (b : Int) * 2 ^ n = ((b <<< n : Nat) : Int) := by
    rw [Nat.shiftLeft_eq]
    push_cast
    rfl
  rw [h, wrapInt32_of_small _ hlt]

theorem reverseBitsStepInt32_natCast (x w acc i : Nat) (hw : w ≤ 31) (hi : i < w)
    (hacc : acc < 2 ^ 31) :
    reverseBitsStepInt32 (x : Int) (w : Int) (acc : Int) i
        = some ((reverseBitsStep x w acc i : Nat) : Int)
      ∧ reverseBitsStep x w acc i < 2 ^ 31 := by
  have hbit : (x >>> i) % 2 < 2 := Nat.mod_lt _ (by decide)
  obtain ⟨h1, h2⟩ := shiftLeftInt32_bit ((x >>> i) % 2) (w - 1 - i) hbit (by omega)
  have hn : (w : Int) - 1 - (i : Int) = ((w - 1 - i : Nat) : Int) := by omega
  have hmod : ((x >>> i : Nat) : Int) % 2 = (((x >>> i) % 2 : Nat) : Int) := by
    push_cast
    rfl
  have hstep : reverseBitsStep x w acc i = acc ||| (((x >>> i) % 2) <<< (w - 1 - i)) := by
    unfold reverseBitsStep
    rw [Nat.and_one_is_mod]
  constructor
  · unfold reverseBitsStepInt32
    rw [shiftRightInt32_natCast x i (by omega)]
    simp only [Option.bind_eq_bind, Option.some_bind, bind, pure]
    rw [hmod, hn, h1]
    simp only [Option.bind_eq_bind, Option.some_bind]
    rw [orInt32_natCast acc _ hacc h2, hstep]
  · rw [hstep]
    exact Nat.or_lt_two_pow hacc h2

theorem reverseBitsInt32_loop (x w : Nat) (hw : w ≤ 31) :
    ∀ n, n ≤ w →
      (List.range n).foldlM (reverseBitsStepInt32 (x : Int) (w : Int)) 0
          = some (((List.range n).foldl (reverseBitsStep x w) 0 : Nat) : Int)
        ∧ (List.range n).foldl (reverseBitsStep x w) 0 < 2 ^ 31 := by
  intro n
  induction n with
  | zero => intro _; exact ⟨rfl, Nat.two_pow_pos 31⟩
  | succ n ih =>
    intro hn
    obtain ⟨h1, h2⟩ := ih (by omega)
    obtain ⟨h3, h4⟩ := reverseBitsStepInt32_natCast x w
      ((List.range n).foldl (reverseBitsStep x w) 0) n hw (by omega) h2
    rw [List.range_succ, List.foldlM_append, List.foldl_append, h1]
    simp only [Option.bind_eq_bind, Option.some_bind, List.foldlM_cons, List.foldlM_nil,
      List.foldl_cons, List.foldl_nil, bind, pure]
    exact ⟨by rw [h3]; rfl, h4⟩

/-- On non-negative `int` values and widths up to 31 the 32-bit function is
`reverseBits`. -/
theorem reverseBitsInt32_eq_reverseBits (x w : Nat) (hw : w ≤ 31) :
    reverseBitsInt32 (x : Int) (w : Int) = some ((reverseBits x w : Nat) : Int) := by
  unfold reverseBitsInt32 reverseBits
  rw [Int.toNat_ofNat]
  exact (reverseBitsInt32_loop x w hw w (Nat.le_refl w)).1

set_option maxRecDepth 100000 in
/-- C4, as stated, fails: for `x = 1` and `w = 32` the result is
`-2147483648`, which is negative, and for `w = 33` the first shift count is 32,
which is undefined on `int`. -/
theorem reverseBitsInt32_width_32_negative :
    reverseBitsInt32 1 32 = some (-2147483648) ∧ ¬ (0 : Int) ≤ -2147483648
      ∧ reverseBitsInt32 1 33 = none := by
  decide

/-- C4 (amended): for every `int` value `x ≥ 0` (so `x < 2^31`) and every
width `0 ≤ w ≤ 31`, `reverseBits(x, w)` returns a result `r` with
`0 ≤ r < 2^w` whose bit `j` equals bit `w - 1 - j` of `x` for every `j < w`,
and the result is that of `reverseBits(x mod 2^w, w)`. -/
theorem reverseBitsInt32_reverses_low_bits (x w : Nat) (hx : x < 2 ^ 31) (hw : w ≤ 31) :
    ∃ r : Nat,
      reverseBitsInt32 (x : Int) (w : Int) = some (r : Int)
        ∧ r < 2 ^ w
        ∧ (∀ j, j < w → r.testBit j = x.testBit (w - 1 - j))
        ∧ reverseBitsInt32 ((x % 2 ^ w : Nat) : Int) (w : Int) = some (r : Int) := by
  have _hx := hx
  refine ⟨reverseBits x w, reverseBitsInt32_eq_reverseBits x w hw, reverseBits_lt x w, ?_, ?_⟩
  · intro j hj
    rw [testBit_reverseBits]
    simp [hj]
  · rw [reverseBitsInt32_eq_reverseBits _ w hw, ← reverseBits_mod]

theorem reverseBitsInt32_reverses_low_bits_witness :
    13 < 2 ^ 31 ∧ 3 ≤ 31
      ∧ ∃ r : Nat,
          reverseBitsInt32 ((13 : Nat) : Int) ((3 : Nat) : Int) = some (r : Int)
            ∧ r < 2 ^ 3
            ∧ (∀ j, j < 3 → r.testBit j = Nat.testBit 13 (3 - 1 - j))
            ∧ reverseBitsInt32 ((13 % 2 ^ 3 : Nat) : Int) ((3 : Nat) : Int) = some (r : Int) :=
  ⟨by decide, by decide, reverseBitsInt32_reverses_low_bits 13 3 (by decide) (by decide)⟩


/-! ## The bit-reversal step -/

theorem log2f_two_pow (k : Nat) : log2f (2 ^ k) = k :=
  Nat.log_pow (by decide) k

theorem log2f_two_pow_succ (k : Nat) (hk : 1 ≤ k) : log2f (2 ^ k + 1) = k := by
  apply Nat.log_eq_of_pow_le_of_lt_pow
  · omega
  · have h2 : 2 ≤ 2 ^ k := by
      calc 2 = 2 ^ 1 := rfl
        _ ≤ 2 ^ k := Nat.pow_le_pow_right (by decide) hk
    rw [Nat.pow_succ]
    omega

/-- For the indices of a `2^k`-point sequence the width `log2f (2^k + 1)` used
by the source reverses like the width `k`. -/
theorem reverseBits_width (k j : Nat) (hj : j < 2 ^ k) :
    reverseBits j (log2f (2 ^ k + 1)) = reverseBits j k := by
  cases k with
  | zero =>
    have : j = 0 := by simpa using hj
    subst this
    have : log2f (2 ^ 0 + 1) = 1 := by simp [log2f, Nat.log]
    rw [this]
    decide
  | succ k => rw [log2f_two_pow_succ (k + 1) (by omega)]

/-- The value the bit-reversal step stores in slot `i`. -/
theorem bitReversalStep_eq_fold {R : Type} [Zero R] (input_values : List (Complex R))
    (input_size : Nat) (seq : List (Complex R)) :
    bitReversalStep input_values input_size seq
      = (List.range' 1 (input_size - 1)).foldlM
          (fun acc i =>
            ((input_values[reverseBits (i - 1) (log2f input_size) + 1]?).map
                fun v => (⟨v.real, 0⟩ : Complex R)).bind
              fun v => some (acc.set i v))
          seq := by
  show (List.range' 1 (input_size - 1)).foldlM _ seq = _
  congr 1
  funext acc i
  cases input_values[reverseBits (i - 1) (log2f input_size) + 1]? <;> rfl

theorem bitReversalStep_two_pow {R : Type} [Zero R] (k : Nat)
    (input_values : List (Complex R)) (hlen : input_values.length = 2 ^ k + 1)
    (seq : List (Complex R)) :
    bitReversalStep input_values input_values.length seq
      = some (setRange
          (fun i => ⟨(input_values.getD (reverseBits (i - 1) k + 1) ⟨0, 0⟩).real, 0⟩)
          1 (2 ^ k) seq) := by
  rw [bitReversalStep_eq_fold, hlen]
  rw [Nat.add_sub_cancel]
  apply foldlM_set_some
  intro i h1 h2
  have hi : i - 1 < 2 ^ k := by omega
  rw [reverseBits_width k (i - 1) hi]
  have hr : reverseBits (i - 1) k + 1 < input_values.length := by
    have := reverseBits_lt (i - 1) k
    omega
  rw [List.getElem?_eq_getElem hr, List.getD_eq_getElem _ _ hr]
  rfl

theorem map_reverseBits_perm (k : Nat) :
    ((List.range (2 ^ k)).map fun j => reverseBits j k).Perm (List.range (2 ^ k)) := by
  rw [List.perm_ext_iff_of_nodup]
  · intro a
    simp only [List.mem_map, List.mem_range]
    constructor
    · rintro ⟨j, _, rfl⟩
      exact reverseBits_lt j k
    · intro ha
      exact ⟨reverseBits a k, reverseBits_lt a k, reverseBits_reverseBits a k ha⟩
  · apply List.Nodup.map_on _ (List.nodup_range _)
    intro x hx y hy hxy
    rw [List.mem_range] at hx hy
    rw [← reverseBits_reverseBits x k hx, ← reverseBits_reverseBits y k hy, hxy]
  · exact List.nodup_range _

/-- C3: for an input of `N = 2^k + 1` entries (sentinel first) and
`max_bit_width = log2f (N - 1)`, the bit-reversal step succeeds and yields a
round-0 sequence of length `N` in which, for every `i` with `1 ≤ i ≤ N - 1`,
slot `reverseBits (i - 1) max_bit_width + 1` holds the real part of input
sample `i` with imaginary part zero; every imaginary part of the round-0
sequence is zero, and the real parts of slots `1 .. N - 1` are a permutation of
the real parts of the input samples. -/
theorem bitReversalStep_places_samples {R : Type} [Zero R] (k : Nat)
    (input_values : List (Complex R)) (hlen : input_values.length = 2 ^ k + 1) :
    ∃ seq0,
      bitReversalStep input_values input_values.length (zeroBuffer input_values.length)
          = some seq0
        ∧ seq0.length = input_values.length
        ∧ (∀ i, 1 ≤ i → i ≤ input_values.length - 1 →
            seq0[reverseBits (i - 1) (log2f (input_values.length - 1)) + 1]?
              = (input_values[i]?).map fun v => ⟨v.real, 0⟩)
        ∧ (∀ z ∈ seq0, z.img = 0)
        ∧ List.Perm (seq0.tail.map Complex.real) (input_values.tail.map Complex.real) := by
  refine ⟨_, bitReversalStep_two_pow k input_values hlen _, ?_, ?_, ?_, ?_⟩
  · rw [length_setRange]
    simp [zeroBuffer]
  · intro i h1 h2
    have hN : input_values.length - 1 = 2 ^ k := by omega
    rw [hN, log2f_two_pow] 
    have hi : i - 1 < 2 ^ k := by omega
    have hr := reverseBits_lt (i - 1) k
    rw [getElem?_setRange]
    have hc : 1 ≤ reverseBits (i - 1) k + 1 ∧ reverseBits (i - 1) k + 1 < 1 + 2 ^ k
        ∧ reverseBits (i - 1) k + 1 < (zeroBuffer (R := R) input_values.length).length := by
      simp only [zeroBuffer, List.length_replicate]
      omega
    rw [if_pos hc]
    have e1 : reverseBits (i - 1) k + 1 - 1 = reverseBits (i - 1) k := by omega
    rw [e1, reverseBits_reverseBits (i - 1) k hi]
    have e2 : i - 1 + 1 = i := by omega
    have hlt : i < input_values.length := by omega
    rw [e2, List.getD_eq_getElem _ _ hlt, List.getElem?_eq_getElem hlt]
    rfl
  · intro z hz
    rw [List.mem_iff_getElem?] at hz
    obtain ⟨n, hn⟩ := hz
    rw [getElem?_setRange] at hn
    split at hn
    · cases hn; rfl
    · simp only [zeroBuffer, List.getElem?_replicate] at hn
      split at hn
      · cases hn; rfl
      · cases hn
  · have hs : (setRange
          (fun i => (⟨(input_values.getD (reverseBits (i - 1) k + 1) ⟨0, 0⟩).real, 0⟩ : Complex R))
          1 (2 ^ k) (zeroBuffer input_values.length)).tail.map Complex.real
        = ((List.range (2 ^ k)).map fun j => reverseBits j k).map
            fun n => (input_values.getD (n + 1) ⟨0, 0⟩).real := by
      apply List.ext_getElem?
      intro n
      rw [List.getElem?_map, List.getElem?_tail, getElem?_setRange, List.map_map,
        List.getElem?_map]
      by_cases hn : n < 2 ^ k
      · have hc : 1 ≤ n + 1 ∧ n + 1 < 1 + 2 ^ k
            ∧ n + 1 < (zeroBuffer (R := R) input_values.length).length := by
          simp only [zeroBuffer, List.length_replicate]
          omega
        rw [if_pos hc, List.getElem?_range hn]
        rfl
      · have hc : ¬ (1 ≤ n + 1 ∧ n + 1 < 1 + 2 ^ k
            ∧ n + 1 < (zeroBuffer (R := R) input_values.length).length) := by
          omega
        have h1 : (zeroBuffer (R := R) input_values.length)[n + 1]? = none := by
          apply List.getElem?_eq_none
          simp only [zeroBuffer, List.length_replicate]
          omega
        have h2 : (List.range (2 ^ k))[n]? = none := by
          apply List.getElem?_eq_none
          simp only [List.length_range]
          omega
        rw [if_neg hc, h1, h2]
        rfl
    have hi : input_values.tail.map Complex.real
        = (List.range (2 ^ k)).map fun n => (input_values.getD (n + 1) ⟨0, 0⟩).real := by
      apply List.ext_getElem?
      intro n
      rw [List.getElem?_map, List.getElem?_tail, List.getElem?_map]
      by_cases hn : n < 2 ^ k
      · have hlt : n + 1 < input_values.length := by omega
        rw [List.getElem?_range hn, List.getElem?_eq_getElem hlt]
        simp only [Option.map_some']
        rw [List.getD_eq_getElem _ _ hlt]
      · have h1 : input_values[n + 1]? = none := List.getElem?_eq_none (by omega)
        have h2 : (List.range (2 ^ k))[n]? = none := by
          apply List.getElem?_eq_none
          simp only [List.length_range]
          omega
        rw [h1, h2]
        rfl
    rw [hs, hi]
    exact (map_reverseBits_perm k).map _

theorem bitReversalStep_places_samples_witness :
    ∃ seq0,
      bitReversalStep ([⟨0, 0⟩, ⟨1, 5⟩, ⟨2, 6⟩, ⟨3, 7⟩, ⟨4, 8⟩] : List (Complex ℚ)) 5
          (zeroBuffer 5) = some seq0
        ∧ seq0.length = 5
        ∧ (∀ i, 1 ≤ i → i ≤ 5 - 1 →
            seq0[reverseBits (i - 1) (log2f (5 - 1)) + 1]?
              = (([⟨0, 0⟩, ⟨1, 5⟩, ⟨2, 6⟩, ⟨3, 7⟩, ⟨4, 8⟩] : List (Complex ℚ))[i]?).map
                  fun v => ⟨v.real, 0⟩)
        ∧ (∀ z ∈ seq0, z.img = 0)
        ∧ List.Perm (seq0.tail.map Complex.real)
            (([⟨0, 0⟩, ⟨1, 5⟩, ⟨2, 6⟩, ⟨3, 7⟩, ⟨4, 8⟩] : List (Complex ℚ)).tail.map
              Complex.real) :=
  bitReversalStep_places_samples 2 [⟨0, 0⟩, ⟨1, 5⟩, ⟨2, 6⟩, ⟨3, 7⟩, ⟨4, 8⟩] rfl

/-! ## Wing selection and the indices a worker reads -/

theorem is_even_eq (rank div : Nat) (hr : 1 ≤ rank) (hd : 1 ≤ div) :
    is_even rank div = if (rank - 1) % (div * 2) < div then 1 else 0 := by
  unfold is_even
  have h1 : rank + div - 1 = (rank - 1) + div := by omega
  rw [h1, Nat.add_div_right _ (by omega : 0 < div), Nat.mod_mul]
  have h2 : (rank - 1) % div < div := Nat.mod_lt _ (by omega)
  have h3 : (rank - 1) / div % 2 = 0 ∨ (rank - 1) / div % 2 = 1 := by omega
  rcases h3 with h3 | h3
  · have : ((rank - 1) / div).succ % 2 = 1 := by omega
    rw [this, h3]
    simp [h2]
  · have : ((rank - 1) / div).succ % 2 = 0 := by omega
    rw [this, h3]
    simp

theorem indices_top (rank div : Nat) (hr : 1 ≤ rank) (hd : 1 ≤ div)
    (h : (rank - 1) % (div * 2) < div) :
    sameSideIndex rank div = (rank : Int) ∧ partnerIndex rank div = ((rank + div : Nat) : Int) := by
  have he := is_even_eq rank div hr hd
  rw [if_pos h] at he
  unfold sameSideIndex partnerIndex is_odd
  rw [he]
  constructor
  · simp
  · push_cast; ring

theorem indices_bottom (rank div : Nat) (hr : 1 ≤ rank) (hd : 1 ≤ div)
    (h : ¬ (rank - 1) % (div * 2) < div) :
    sameSideIndex rank div = ((rank - div : Nat) : Int) ∧ partnerIndex rank div = (rank : Int)
      ∧ div + 1 ≤ rank := by
  have he := is_even_eq rank div hr hd
  rw [if_neg h] at he
  have hle : (rank - 1) % (div * 2) ≤ rank - 1 := Nat.mod_le _ _
  have hdr : div + 1 ≤ rank := by omega
  unfold sameSideIndex partnerIndex is_odd
  rw [he]
  refine ⟨?_, ?_, hdr⟩
  · push_cast [Nat.cast_sub (by omega : div ≤ rank)]
    ring
  · simp

theorem top_partner_in_range (k s j : Nat) (hs : s < k) (hj : j < 2 ^ k)
    (h : j % (2 ^ s * 2) < 2 ^ s) : j + 2 ^ s < 2 ^ k := by
  have hk : 2 ^ k = 2 ^ s * 2 * 2 ^ (k - s - 1) := by
    rw [← Nat.pow_succ, ← Nat.pow_add]
    congr 1
    omega
  have hp : 0 < 2 ^ s * 2 := by positivity
  have hq : j / (2 ^ s * 2) < 2 ^ (k - s - 1) := by
    rw [Nat.div_lt_iff_lt_mul hp, Nat.mul_comm, ← hk]
    exact hj
  have hj' : j = 2 ^ s * 2 * (j / (2 ^ s * 2)) + j % (2 ^ s * 2) := (Nat.div_add_mod j _).symm
  have hmul : 2 ^ s * 2 * (j / (2 ^ s * 2) + 1) ≤ 2 ^ s * 2 * 2 ^ (k - s - 1) :=
    Nat.mul_le_mul_left _ hq
  rw [hk]
  rw [Nat.mul_add, Nat.mul_one] at hmul
  omega

/-- For `N - 1 = 2^k` and a stride `2^s` with `s < k`, both reads of every
worker `1 ≤ rank ≤ N - 1` fall on the data slots `1 .. N - 1`. -/
theorem indices_in_range (k s rank : Nat) (hs : s < k) (hr : 1 ≤ rank) (hr2 : rank ≤ 2 ^ k) :
    1 ≤ sameSideIndex rank (2 ^ s) ∧ sameSideIndex rank (2 ^ s) ≤ ((2 ^ k : Nat) : Int)
      ∧ 1 ≤ partnerIndex rank (2 ^ s) ∧ partnerIndex rank (2 ^ s) ≤ ((2 ^ k : Nat) : Int) := by
  have hd : 1 ≤ 2 ^ s := Nat.one_le_two_pow
  by_cases h : (rank - 1) % (2 ^ s * 2) < 2 ^ s
  · obtain ⟨h1, h2⟩ := indices_top rank (2 ^ s) hr hd h
    have h3 := top_partner_in_range k s (rank - 1) hs (by omega) h
    rw [h1, h2]
    refine ⟨?_, ?_, ?_, ?_⟩ <;> norm_cast <;> omega
  · obtain ⟨h1, h2, h3⟩ := indices_bottom rank (2 ^ s) hr hd h
    rw [h1, h2]
    refine ⟨?_, ?_, ?_, ?_⟩ <;> norm_cast <;> omega

/-! ## The worker computation -/

theorem readAt_eq_getD {α : Type} (buf : List α) (i : Int) (d : α) (h0 : 0 ≤ i)
    (h1 : i.toNat < buf.length) : readAt buf i = some (buf.getD i.toNat d) := by
  unfold readAt
  rw [if_neg (by omega), List.getElem?_eq_getElem h1, List.getD_eq_getElem _ _ h1]

theorem workerCompute_eq_some {R : Type} [Field R] (M : CMath R) (seq : List (Complex R))
    (div rank : Nat)
    (hs0 : 0 ≤ sameSideIndex rank div) (hs1 : (sameSideIndex rank div).toNat < seq.length)
    (hp0 : 0 ≤ partnerIndex rank div) (hp1 : (partnerIndex rank div).toNat < seq.length) :
    workerCompute M seq div rank = some (workerValue M seq div rank) := by
  unfold workerCompute workerValue
  rw [readAt_eq_getD seq _ ⟨0, 0⟩ hs0 hs1, readAt_eq_getD seq _ ⟨0, 0⟩ hp0 hp1]
  rfl

theorem workerCompute_two_pow {R : Type} [Field R] (M : CMath R) (seq : List (Complex R))
    (k s rank : Nat) (hlen : seq.length = 2 ^ k + 1) (hs : s < k) (hr : 1 ≤ rank)
    (hr2 : rank < 2 ^ k + 1) :
    workerCompute M seq (2 ^ s) rank = some (workerValue M seq (2 ^ s) rank) := by
  obtain ⟨h1, h2, h3, h4⟩ := indices_in_range k s rank hs hr (by omega)
  apply workerCompute_eq_some <;> omega

/-! ## One round -/

theorem receiveTemps_eq_fold {R : Type} [Field R] (M : CMath R) (input_size div : Nat)
    (seq temp : List (Complex R)) :
    receiveTemps M input_size div seq temp
      = (List.range' 1 (input_size - 1)).foldlM
          (fun acc i => (workerCompute M seq div i).bind fun v => some (acc.set i v)) temp :=
  rfl

theorem copyTemps_eq_fold {R : Type} (input_size : Nat) (seq temp : List (Complex R)) :
    copyTemps input_size seq temp
      = (List.range' 1 (input_size - 1)).foldlM
          (fun acc i => (temp[i]?).bind fun v => some (acc.set i v)) seq :=
  rfl

theorem loopBody_eq {R : Type} [Field R] (M : CMath R) (input_size : Nat) (st : LoopState R) :
    loopBody M input_size st
      = (receiveTemps M input_size st.vars.div st.seq st.temp).bind fun temp =>
          (copyTemps input_size st.seq temp).bind fun seq => some (seq, temp) :=
  rfl

/-- When every worker's reads are in range, the round replaces the slots
`1 .. input_size - 1` of `seq` and of `temp` by the workers' values. -/
theorem loopBody_eq_some {R : Type} [Field R] (M : CMath R) (input_size : Nat)
    (st : LoopState R) (htemp : st.temp.length = input_size) (g : Nat → Complex R)
    (hg : ∀ r, 1 ≤ r → r < input_size → workerCompute M st.seq st.vars.div r = some (g r)) :
    loopBody M input_size st
      = some (setRange g 1 (input_size - 1) st.seq, setRange g 1 (input_size - 1) st.temp) := by
  have h1 : receiveTemps M input_size st.vars.div st.seq st.temp
      = some (setRange g 1 (input_size - 1) st.temp) := by
    rw [receiveTemps_eq_fold]
    apply foldlM_set_some
    intro i hi1 hi2
    exact hg i hi1 (by omega)
  have h2 : copyTemps input_size st.seq (setRange g 1 (input_size - 1) st.temp)
      = some (setRange g 1 (input_size - 1) st.seq) := by
    rw [copyTemps_eq_fold]
    apply foldlM_set_some
    intro i hi1 hi2
    rw [getElem?_setRange, if_pos (by omega)]
  rw [loopBody_eq, h1, Option.some_bind, h2, Option.some_bind]

theorem loopBody_defined {R : Type} [Field R] (M : CMath R) (input_size : Nat)
    (st : LoopState R) (p : List (Complex R) × List (Complex R))
    (h : loopBody M input_size st = some p) :
    ∀ r, 1 ≤ r → r < input_size → (workerCompute M st.seq st.vars.div r).isSome = true := by
  rw [loopBody_eq] at h
  cases hr : receiveTemps M input_size st.vars.div st.seq st.temp with
  | none => rw [hr] at h; cases h
  | some temp =>
    rw [receiveTemps_eq_fold] at hr
    intro r h1 h2
    exact foldlM_set_defined _ _ _ _ _ hr r h1 (by omega)

/-- What a successful round stores: slot 0 is untouched and every slot
`1 ≤ r < input_size` of the new sequence holds the value computed by worker
`r` from the previous sequence. -/
theorem loopBody_slots {R : Type} [Field R] (M : CMath R) (input_size : Nat)
    (st : LoopState R) (hseq : st.seq.length = input_size)
    (htemp : st.temp.length = input_size) (p : List (Complex R) × List (Complex R))
    (h : loopBody M input_size st = some p) :
    p.1.length = input_size ∧ p.2.length = input_size ∧ p.1[0]? = st.seq[0]?
      ∧ ∀ r, 1 ≤ r → r < input_size →
          p.1[r]? = workerCompute M st.seq st.vars.div r := by
  have hdef := loopBody_defined M input_size st p h
  have hg : ∀ r, 1 ≤ r → r < input_size →
      workerCompute M st.seq st.vars.div r
        = some ((fun r => (workerCompute M st.seq st.vars.div r).getD ⟨0, 0⟩) r) := by
    intro r h1 h2
    have := hdef r h1 h2
    cases hw : workerCompute M st.seq st.vars.div r with
    | none => rw [hw] at this; cases this
    | some v => simp [hw]
  have h' := loopBody_eq_some M input_size st htemp _ hg
  rw [h] at h'
  cases h'
  refine ⟨?_, ?_, ?_, ?_⟩
  · rw [length_setRange, hseq]
  · rw [length_setRange, htemp]
  · rw [getElem?_setRange, if_neg (by omega)]
  · intro r h1 h2
    rw [getElem?_setRange, if_pos (by omega)]
    exact (hg r h1 h2).symm

/-! ## The round loop -/

theorem roundLoop_unfold {R : Type} [Field R] (M : CMath R) (input_size : Nat)
    (st : LoopState R) :
    roundLoop M input_size st
      = if loopGuard st.vars = true then
          (loopStep M input_size st).bind (roundLoop M input_size)
        else some st := by
  rw [roundLoop]
  unfold loopStep
  by_cases hg : loopGuard st.vars = true
  · rw [dif_pos hg, if_pos hg]
    cases loopBody M input_size st <;> rfl
  · rw [dif_neg hg, if_neg hg]

theorem loopIncrement_iterate (s K : Nat) :
    loopIncrement^[s] ⟨1, K⟩ = ⟨2 ^ s, K - s⟩ := by
  induction s with
  | zero => rfl
  | succ s ih =>
    rw [Function.iterate_succ_apply', ih]
    simp only [loopIncrement, LoopVars.mk.injEq]
    constructor
    · rw [Nat.pow_succ]
    · omega

/-- Induction over the rounds of a `2^k`-point run: a property of the
sequence that is carried from stage `s` to stage `s + 1` by every round holds
after the loop, and the loop returns. -/
theorem roundLoop_induction {R : Type} [Field R] (M : CMath R) (k : Nat)
    (P : Nat → List (Complex R) → Prop)
    (hstep : ∀ s seq seq', s < k → seq.length = 2 ^ k + 1 → P s seq →
      seq'.length = 2 ^ k + 1 →
      (∀ r, 1 ≤ r → r < 2 ^ k + 1 → seq'[r]? = some (workerValue M seq (2 ^ s) r)) →
      seq'[0]? = seq[0]? → P (s + 1) seq') :
    ∀ (n s : Nat) (st : LoopState R), s + n = k → st.vars = ⟨2 ^ s, n⟩ →
      st.seq.length = 2 ^ k + 1 → st.temp.length = 2 ^ k + 1 → P s st.seq →
      ∃ st', roundLoop M (2 ^ k + 1) st = some st' ∧ st'.vars = ⟨2 ^ k, 0⟩
        ∧ st'.seq.length = 2 ^ k + 1 ∧ st'.temp.length = 2 ^ k + 1 ∧ P k st'.seq := by
  intro n
  induction n with
  | zero =>
    intro s st hsn hvars hseq htemp hP
    have hs : s = k := by omega
    subst hs
    refine ⟨st, ?_, hvars, hseq, htemp, hP⟩
    rw [roundLoop_unfold]
    have : ¬ loopGuard st.vars = true := by simp [loopGuard, hvars]
    rw [if_neg this]
  | succ n ih =>
    intro s st hsn hvars hseq htemp hP
    have hs : s < k := by omega
    have hdiv : st.vars.div = 2 ^ s := by rw [hvars]
    have hg : ∀ r, 1 ≤ r → r < 2 ^ k + 1 →
        workerCompute M st.seq st.vars.div r = some (workerValue M st.seq (2 ^ s) r) := by
      intro r h1 h2
      rw [hdiv]
      exact workerCompute_two_pow M st.seq k s r hseq hs h1 h2
    have hbody := loopBody_eq_some M (2 ^ k + 1) st htemp _ hg
    have hslots := loopBody_slots M (2 ^ k + 1) st hseq htemp _ hbody
    obtain ⟨hl1, hl2, h0, hr⟩ := hslots
    rw [roundLoop_unfold]
    have hguard : loopGuard st.vars = true := by simp [loopGuard, hvars]
    rw [if_pos hguard]
    unfold loopStep
    rw [hbody, Option.map_some', Option.some_bind]
    apply ih (s + 1)
    · omega
    · show loopIncrement st.vars = ⟨2 ^ (s + 1), n⟩
      rw [hvars]
      show (⟨2 ^ s * 2, n + 1 - 1⟩ : LoopVars) = ⟨2 ^ (s + 1), n⟩
      rw [Nat.pow_succ, Nat.add_sub_cancel]
    · exact hl1
    · exact hl2
    · apply hstep s st.seq _ hs hseq hP hl1 _ h0
      intro r h1 h2
      rw [hr r h1 h2, hg r h1 h2]

/-! ## Running the program on `2^k` samples -/

theorem roundLoop_done {R : Type} [Field R] (M : CMath R) (input_size : Nat)
    (st : LoopState R) (hkey : st.vars.key = 0) : roundLoop M input_size st = some st := by
  rw [roundLoop_unfold]
  have : ¬ loopGuard st.vars = true := by simp [loopGuard, hkey]
  rw [if_neg this]

theorem roundLoop_round {R : Type} [Field R] (M : CMath R) (k s n : Nat) (hs : s < k)
    (seq temp : List (Complex R)) (hseq : seq.length = 2 ^ k + 1)
    (htemp : temp.length = 2 ^ k + 1) :
    roundLoop M (2 ^ k + 1) ⟨⟨2 ^ s, n + 1⟩, seq, temp⟩
      = roundLoop M (2 ^ k + 1)
          ⟨⟨2 ^ (s + 1), n⟩, setRange (workerValue M seq (2 ^ s)) 1 (2 ^ k) seq,
            setRange (workerValue M seq (2 ^ s)) 1 (2 ^ k) temp⟩ := by
  have hg : ∀ r, 1 ≤ r → r < 2 ^ k + 1 →
      workerCompute M seq (2 ^ s) r = some (workerValue M seq (2 ^ s) r) :=
    fun r h1 h2 => workerCompute_two_pow M seq k s r hseq hs h1 h2
  have hbody := loopBody_eq_some M (2 ^ k + 1) ⟨⟨2 ^ s, n + 1⟩, seq, temp⟩ htemp _ hg
  rw [roundLoop_unfold]
  have hguard : loopGuard (⟨2 ^ s, n + 1⟩ : LoopVars) = true := by simp [loopGuard]
  rw [if_pos hguard]
  unfold loopStep
  rw [hbody, Option.map_some', Option.some_bind]
  simp only [loopIncrement, Nat.add_sub_cancel, Nat.pow_succ]

theorem main_eq {R : Type} [Field R] (M : CMath R) (input_values : List (Complex R)) :
    main M input_values
      = (bitReversalStep input_values input_values.length
            (zeroBuffer input_values.length)).bind fun seq =>
          (roundLoop M input_values.length
            ⟨initialVars input_values.length, seq, zeroBuffer input_values.length⟩).bind
              fun st => some st.seq :=
  rfl

/-- The program on `2^k` samples: the round loop entered with `div = 1`,
`key = k` on the bit-reversed real parts. -/
theorem main_two_pow {R : Type} [Field R] (M : CMath R) (k : Nat)
    (input_values : List (Complex R)) (hlen : input_values.length = 2 ^ k + 1) :
    main M input_values
      = (roundLoop M (2 ^ k + 1)
          ⟨⟨2 ^ 0, k⟩,
            setRange
              (fun i => ⟨(input_values.getD (reverseBits (i - 1) k + 1) ⟨0, 0⟩).real, 0⟩)
              1 (2 ^ k) (zeroBuffer (2 ^ k + 1)),
            zeroBuffer (2 ^ k + 1)⟩).bind fun st => some st.seq := by
  rw [main_eq, bitReversalStep_two_pow k input_values hlen, Option.some_bind, hlen]
  simp only [initialVars, Nat.add_sub_cancel, log2f_two_pow, Nat.pow_zero]

/-! ## Known values -/

theorem cos_three_pi_div_two : Real.cos (Real.pi * 3 / 2) = 0 := by
  have h : Real.pi * 3 / 2 = Real.pi / 2 + Real.pi := by ring
  rw [h, Real.cos_add_pi, Real.cos_pi_div_two, neg_zero]

theorem sin_three_pi_div_two : Real.sin (Real.pi * 3 / 2) = -1 := by
  have h : Real.pi * 3 / 2 = Real.pi / 2 + Real.pi := by ring
  rw [h, Real.sin_add_pi, Real.sin_pi_div_two]

/-- The four worker values of the stride-1 round of a four-sample run. -/
theorem workerValue_stride_one (a b c d e : Complex ℝ) :
    workerValue (⟨Real.pi, Real.cos, Real.sin⟩ : CMath ℝ) [a, b, c, d, e] (2 ^ 0) 1
        = ⟨b.real + c.real, b.img + c.img⟩
      ∧ workerValue (⟨Real.pi, Real.cos, Real.sin⟩ : CMath ℝ) [a, b, c, d, e] (2 ^ 0) 2
        = ⟨b.real - c.real, b.img - c.img⟩
      ∧ workerValue (⟨Real.pi, Real.cos, Real.sin⟩ : CMath ℝ) [a, b, c, d, e] (2 ^ 0) 3
        = ⟨d.real + e.real, d.img + e.img⟩
      ∧ workerValue (⟨Real.pi, Real.cos, Real.sin⟩ : CMath ℝ) [a, b, c, d, e] (2 ^ 0) 4
        = ⟨d.real - e.real, d.img - e.img⟩ := by
  refine ⟨?_, ?_, ?_, ?_⟩ <;>
    simp [workerValue, sameSideIndex, partnerIndex, is_even, is_odd, butterfly_index,
      sub_eq_add_neg]

/-- The four worker values of the stride-2 round of a four-sample run. -/
theorem workerValue_stride_two (a b c d e : Complex ℝ) :
    workerValue (⟨Real.pi, Real.cos, Real.sin⟩ : CMath ℝ) [a, b, c, d, e] (2 ^ 1) 1
        = ⟨b.real + d.real, b.img + d.img⟩
      ∧ workerValue (⟨Real.pi, Real.cos, Real.sin⟩ : CMath ℝ) [a, b, c, d, e] (2 ^ 1) 2
        = ⟨c.real + e.img, c.img - e.real⟩
      ∧ workerValue (⟨Real.pi, Real.cos, Real.sin⟩ : CMath ℝ) [a, b, c, d, e] (2 ^ 1) 3
        = ⟨b.real - d.real, b.img - d.img⟩
      ∧ workerValue (⟨Real.pi, Real.cos, Real.sin⟩ : CMath ℝ) [a, b, c, d, e] (2 ^ 1) 4
        = ⟨c.real - e.img, c.img + e.real⟩ := by
  refine ⟨?_, ?_, ?_, ?_⟩ <;>
    simp [workerValue, sameSideIndex, partnerIndex, is_even, is_odd, butterfly_index,
      cos_three_pi_div_two, sin_three_pi_div_two, sub_eq_add_neg]

/-- One round of a four-sample run, on explicit buffers. -/
theorem roundLoop_round_four (s n : Nat) (hs : s < 2) (a b c d e t0 t1 t2 t3 t4 : Complex ℝ) :
    roundLoop (⟨Real.pi, Real.cos, Real.sin⟩ : CMath ℝ) (2 ^ 2 + 1)
        ⟨⟨2 ^ s, n + 1⟩, [a, b, c, d, e], [t0, t1, t2, t3, t4]⟩
      = roundLoop (⟨Real.pi, Real.cos, Real.sin⟩ : CMath ℝ) (2 ^ 2 + 1)
          ⟨⟨2 ^ (s + 1), n⟩,
            [a, workerValue ⟨Real.pi, Real.cos, Real.sin⟩ [a, b, c, d, e] (2 ^ s) 1,
              workerValue ⟨Real.pi, Real.cos, Real.sin⟩ [a, b, c, d, e] (2 ^ s) 2,
              workerValue ⟨Real.pi, Real.cos, Real.sin⟩ [a, b, c, d, e] (2 ^ s) 3,
              workerValue ⟨Real.pi, Real.cos, Real.sin⟩ [a, b, c, d, e] (2 ^ s) 4],
            [t0, workerValue ⟨Real.pi, Real.cos, Real.sin⟩ [a, b, c, d, e] (2 ^ s) 1,
              workerValue ⟨Real.pi, Real.cos, Real.sin⟩ [a, b, c, d, e] (2 ^ s) 2,
              workerValue ⟨Real.pi, Real.cos, Real.sin⟩ [a, b, c, d, e] (2 ^ s) 3,
              workerValue ⟨Real.pi, Real.cos, Real.sin⟩ [a, b, c, d, e] (2 ^ s) 4]⟩ :=
  roundLoop_round ⟨Real.pi, Real.cos, Real.sin⟩ 2 s n hs [a, b, c, d, e] [t0, t1, t2, t3, t4]
    rfl rfl

/-- The program on four samples, as a closed formula in the real parts. -/
theorem main_four_samples (s0 x1 x2 x3 x4 : Complex ℝ) :
    main (⟨Real.pi, Real.cos, Real.sin⟩ : CMath ℝ) [s0, x1, x2, x3, x4]
      = some [⟨0, 0⟩,
          ⟨x1.real + x3.real + (x2.real + x4.real), 0⟩,
          ⟨x1.real - x3.real, -(x2.real - x4.real)⟩,
          ⟨x1.real + x3.real - (x2.real + x4.real), 0⟩,
          ⟨x1.real - x3.real, x2.real - x4.real⟩] := by
  rw [main_two_pow _ 2 [s0, x1, x2, x3, x4] rfl]
  have e0 : setRange
      (fun i => (⟨(([s0, x1, x2, x3, x4] : List (Complex ℝ)).getD
          (reverseBits (i - 1) 2 + 1) ⟨0, 0⟩).real, 0⟩ : Complex ℝ))
      1 (2 ^ 2) (zeroBuffer (2 ^ 2 + 1))
      = [⟨0, 0⟩, ⟨x1.real, 0⟩, ⟨x3.real, 0⟩, ⟨x2.real, 0⟩, ⟨x4.real, 0⟩] := rfl
  have e2 : zeroBuffer (R := ℝ) (2 ^ 2 + 1) = [⟨0, 0⟩, ⟨0, 0⟩, ⟨0, 0⟩, ⟨0, 0⟩, ⟨0, 0⟩] := rfl
  have a1 := fun a b c d e => (workerValue_stride_one a b c d e).1
  have a2 := fun a b c d e => (workerValue_stride_one a b c d e).2.1
  have a3 := fun a b c d e => (workerValue_stride_one a b c d e).2.2.1
  have a4 := fun a b c d e => (workerValue_stride_one a b c d e).2.2.2
  have b1 := fun a b c d e => (workerValue_stride_two a b c d e).1
  have b2 := fun a b c d e => (workerValue_stride_two a b c d e).2.1
  have b3 := fun a b c d e => (workerValue_stride_two a b c d e).2.2.1
  have b4 := fun a b c d e => (workerValue_stride_two a b c d e).2.2.2
  rw [e0, e2, roundLoop_round_four 0 1 (by decide)]
  simp only [a1, a2, a3, a4]
  rw [roundLoop_round_four 1 0 (by decide)]
  simp only [b1, b2, b3, b4]
  rw [roundLoop_done _ _ _ rfl, Option.some_bind]
  simp

/-- C7: on the constant four-sample input `[1,0],[1,0],[1,0],[1,0]` (over
the reals) the program returns the sequence whose slots 1..4 are
`[4,0],[0,0],[0,0],[0,0]`. -/
theorem main_constant_input :
    main (⟨Real.pi, Real.cos, Real.sin⟩ : CMath ℝ)
        [⟨0, 0⟩, ⟨1, 0⟩, ⟨1, 0⟩, ⟨1, 0⟩, ⟨1, 0⟩]
      = some [⟨0, 0⟩, ⟨4, 0⟩, ⟨0, 0⟩, ⟨0, 0⟩, ⟨0, 0⟩] := by
  rw [main_four_samples]
  norm_num

/-- The program on the four-sample input `[0,0],[1,0],[0,0],[-1,0]`. -/
theorem main_alternating_eval :
    main (⟨Real.pi, Real.cos, Real.sin⟩ : CMath ℝ)
        [⟨0, 0⟩, ⟨0, 0⟩, ⟨1, 0⟩, ⟨0, 0⟩, ⟨-1, 0⟩]
      = some [⟨0, 0⟩, ⟨0, 0⟩, ⟨0, -2⟩, ⟨0, 0⟩, ⟨0, 2⟩] := by
  rw [main_four_samples]
  norm_num

/-- C6, as stated, fails: on the input `[0,0],[1,0],[0,0],[-1,0]` the final
slots 1..4 are not `[0,0],[0,2],[0,0],[0,-2]`. -/
theorem alternating_input_claimed_value_fails :
    ¬ ∃ seq, main (⟨Real.pi, Real.cos, Real.sin⟩ : CMath ℝ)
          [⟨0, 0⟩, ⟨0, 0⟩, ⟨1, 0⟩, ⟨0, 0⟩, ⟨-1, 0⟩] = some seq
        ∧ seq.tail = [⟨0, 0⟩, ⟨0, 2⟩, ⟨0, 0⟩, ⟨0, -2⟩] := by
  rintro ⟨seq, h1, h2⟩
  rw [main_alternating_eval] at h1
  cases h1
  simp only [List.tail_cons, List.cons.injEq, Complex.mk.injEq, true_and] at h2
  norm_num at h2

/-- C6 (amended): on the four-sample input `[0,0],[1,0],[0,0],[-1,0]` (over
the reals) the final slots 1..4 are `[0,0],[0,-2],[0,0],[0,2]`: the twiddle
factor is `cos - i sin`, so the spectrum is the conjugate of the value the
spec lists. -/
theorem main_alternating_input :
    ∃ seq, main (⟨Real.pi, Real.cos, Real.sin⟩ : CMath ℝ)
          [⟨0, 0⟩, ⟨0, 0⟩, ⟨1, 0⟩, ⟨0, 0⟩, ⟨-1, 0⟩] = some seq
        ∧ seq.tail = [⟨0, 0⟩, ⟨0, -2⟩, ⟨0, 0⟩, ⟨0, 2⟩] :=
  ⟨_, main_alternating_eval, rfl⟩

/-! ## Degenerate size -/

theorem initialVars_two : initialVars 2 = ⟨1, 0⟩ := by
  simp [initialVars, log2f]

/-- The program on a single sample. -/
theorem main_single_eval {R : Type} [Field R] (M : CMath R) (s0 z : Complex R) :
    main M [s0, z] = some [⟨0, 0⟩, ⟨z.real, 0⟩] := by
  rw [main_two_pow M 0 [s0, z] rfl, roundLoop_done _ _ _ rfl]
  rfl

/-- C8, as stated, fails: for the single sample `(1, 1)` the final `seq[1]`
is not the input sample. -/
theorem single_sample_imaginary_part_dropped :
    ¬ ∃ seq, main (⟨Real.pi, Real.cos, Real.sin⟩ : CMath ℝ) [⟨0, 0⟩, ⟨1, 1⟩] = some seq
        ∧ seq[1]? = some ⟨1, 1⟩ := by
  rintro ⟨seq, h1, h2⟩
  rw [main_single_eval] at h1
  cases h1
  simp at h2

/-- C8 (amended): for every input consisting of a single sample `z` the loop
guard fails at entry, so the round loop returns its entry state without
executing a round, and the final sequence is `[(0,0), (z.real, 0)]`: `seq[1]`
keeps the real component of the sample and has imaginary component 0; it is
the input sample exactly when the sample's imaginary component is 0. -/
theorem main_single_sample {R : Type} [Field R] (M : CMath R) (s0 z : Complex R) :
    loopGuard (initialVars 2) = false
      ∧ (∀ seq temp : List (Complex R),
          roundLoop M 2 ⟨initialVars 2, seq, temp⟩ = some ⟨initialVars 2, seq, temp⟩)
      ∧ main M [s0, z] = some [⟨0, 0⟩, ⟨z.real, 0⟩]
      ∧ ((⟨z.real, 0⟩ : Complex R) = z ↔ z.img = 0) := by
  refine ⟨?_, ?_, main_single_eval M s0 z, ?_⟩
  · rw [initialVars_two]; rfl
  · intro seq temp
    apply roundLoop_done
    rw [initialVars_two]
  · cases z with
    | mk re im =>
      simp only [Complex.mk.injEq, true_and]
      exact eq_comm

/-! ## The registered datatype -/

/-- C9 (the code departs from it): the call made by `initGlobals` has two
blocks of `MPI_FLOAT` at displacements 0 and 4, but each block has element
count `sizeof(float) = 4`, not 1; the registered type map therefore lists
eight floats reaching to byte 20 and differs from the layout of
`struct Complex`. -/
theorem initGlobals_registers_blocklength_four :
    initGlobals_MPI_COMPLEX_T.count = 2
      ∧ initGlobals_MPI_COMPLEX_T.array_of_types = [.MPI_FLOAT, .MPI_FLOAT]
      ∧ initGlobals_MPI_COMPLEX_T.array_of_displacements = [0, 4]
      ∧ initGlobals_MPI_COMPLEX_T.array_of_blocklengths = [4, 4]
      ∧ initGlobals_MPI_COMPLEX_T.array_of_blocklengths ≠ [1, 1]
      ∧ initGlobals_MPI_COMPLEX_T.typeMap
          = [(.MPI_FLOAT, 0), (.MPI_FLOAT, 4), (.MPI_FLOAT, 8), (.MPI_FLOAT, 12),
             (.MPI_FLOAT, 4), (.MPI_FLOAT, 8), (.MPI_FLOAT, 12), (.MPI_FLOAT, 16)]
      ∧ initGlobals_MPI_COMPLEX_T.typeMap ≠ complexLayout := by
  decide

/-! ## The butterfly network computes a transform -/

theorem sum_range_even_odd {A : Type} [AddCommMonoid A] (f : Nat → A) (n : Nat) :
    ∑ u in Finset.range (n * 2), f u
      = ∑ v in Finset.range n, f (2 * v) + ∑ v in Finset.range n, f (2 * v + 1) := by
  induction n with
  | zero => simp
  | succ n ih =>
    have h : (n + 1) * 2 = n * 2 + 1 + 1 := by ring
    have h2 : n * 2 = 2 * n := by ring
    rw [h, Finset.sum_range_succ, Finset.sum_range_succ, ih, Finset.sum_range_succ,
      Finset.sum_range_succ, h2]
    abel

/-- The decimation-in-time recurrence of the block sums. -/
theorem blockSum_succ {A : Type} [CommRing A] (ker : Nat → Nat → Nat → A) (tw : Nat → Nat → A)
    (x : Nat → A) (k s b t : Nat) (hs : s < k)
    (hker0 : ∀ v, v < 2 ^ s → ker (s + 1) t (2 * v) = ker s (t % 2 ^ s) v)
    (hker1 : ∀ v, v < 2 ^ s → ker (s + 1) t (2 * v + 1) = ker s (t % 2 ^ s) v * tw s t) :
    blockSum ker x k (s + 1) b t
      = blockSum ker x k s (2 * b) (t % 2 ^ s)
        + tw s t * blockSum ker x k s (2 * b + 1) (t % 2 ^ s) := by
  unfold blockSum
  rw [Nat.pow_succ, sum_range_even_odd, Finset.mul_sum]
  have hk : k - s = (k - (s + 1)) + 1 := by omega
  have hp : 2 ^ (k - s) = 2 * 2 ^ (k - (s + 1)) := by rw [hk, Nat.pow_succ, Nat.mul_comm]
  have r0 := reverseBits_succ b 0 (k - (s + 1)) (by decide)
  have r1 := reverseBits_succ b 1 (k - (s + 1)) (by decide)
  rw [← hk] at r0 r1
  congr 1
  · apply Finset.sum_congr rfl
    intro v hv
    rw [Finset.mem_range] at hv
    rw [hker0 v hv]
    congr 2
    have : 2 * b = 2 * b + 0 := rfl
    rw [this, r0, hp]
    ring
  · apply Finset.sum_congr rfl
    intro v hv
    rw [Finset.mem_range] at hv
    rw [hker1 v hv, r1, hp]
    have : (2 * v + 1) * 2 ^ (k - (s + 1)) + reverseBits b (k - (s + 1))
        = v * (2 * 2 ^ (k - (s + 1))) + (1 * 2 ^ (k - (s + 1)) + reverseBits b (k - (s + 1))) := by
      ring
    rw [this]
    ring

/-- One stage carries the block-sum invariant from stage `s` to `s + 1`. -/
theorem butterflyStage_blockSum {A : Type} [CommRing A] (ker : Nat → Nat → Nat → A)
    (tw : Nat → Nat → A) (x : Nat → A) (k s : Nat) (hs : s < k)
    (hker0 : ∀ t v, t < 2 ^ (s + 1) → v < 2 ^ s → ker (s + 1) t (2 * v) = ker s (t % 2 ^ s) v)
    (hker1 : ∀ t v, t < 2 ^ (s + 1) → v < 2 ^ s →
      ker (s + 1) t (2 * v + 1) = ker s (t % 2 ^ s) v * tw s t)
    (a a' : Nat → A)
    (ha : ∀ b t, b < 2 ^ (k - s) → t < 2 ^ s → a (b * 2 ^ s + t) = blockSum ker x k s b t)
    (ha' : ∀ j, j < 2 ^ k → a' j = butterflyStage (tw s) (2 ^ s) a j) :
    ∀ b t, b < 2 ^ (k - (s + 1)) → t < 2 ^ (s + 1) →
      a' (b * 2 ^ (s + 1) + t) = blockSum ker x k (s + 1) b t := by
  intro b t hb ht
  have hk : k - s = (k - (s + 1)) + 1 := by omega
  have hpk : 2 ^ (k - s) = 2 ^ (k - (s + 1)) * 2 := by rw [hk, Nat.pow_succ]
  have hps : 2 ^ (s + 1) = 2 ^ s * 2 := Nat.pow_succ 2 s
  have hkk : 2 ^ k = 2 ^ (k - (s + 1)) * 2 ^ (s + 1) := by
    rw [← Nat.pow_add]
    congr 1
    omega
  have hpos : 0 < 2 ^ s := Nat.two_pow_pos s
  have hj : b * 2 ^ (s + 1) + t < 2 ^ k := by
    rw [hkk]
    have : (b + 1) * 2 ^ (s + 1) ≤ 2 ^ (k - (s + 1)) * 2 ^ (s + 1) :=
      Nat.mul_le_mul_right _ hb
    rw [Nat.add_mul, Nat.one_mul] at this
    omega
  have hmod : (b * 2 ^ (s + 1) + t) % (2 ^ s * 2) = t := by
    rw [← hps, Nat.add_comm, Nat.add_mul_mod_self_right, Nat.mod_eq_of_lt ht]
  rw [ha' _ hj, blockSum_succ ker tw x k s b t hs (fun v hv => hker0 t v ht hv)
    (fun v hv => hker1 t v ht hv)]
  unfold butterflyStage
  rw [hmod]
  have hb0 : 2 * b < 2 ^ (k - s) := by omega
  have hb1 : 2 * b + 1 < 2 ^ (k - s) := by omega
  by_cases htop : t < 2 ^ s
  · rw [if_pos htop, Nat.mod_eq_of_lt htop]
    have e1 : b * 2 ^ (s + 1) + t = 2 * b * 2 ^ s + t := by rw [hps]; ring
    have e2 : b * 2 ^ (s + 1) + t + 2 ^ s = (2 * b + 1) * 2 ^ s + t := by rw [hps]; ring
    rw [e2, e1, ha _ _ hb0 htop, ha _ _ hb1 htop]
  · rw [if_neg htop]
    have ht' : t % 2 ^ s = t - 2 ^ s := by
      rw [Nat.mod_eq_sub_mod (by omega), Nat.mod_eq_of_lt (by omega)]
    have hlt : t - 2 ^ s < 2 ^ s := by omega
    have e1 : b * 2 ^ (s + 1) + t - 2 ^ s = 2 * b * 2 ^ s + (t - 2 ^ s) := by
      rw [hps]
      have : b * (2 ^ s * 2) = 2 * b * 2 ^ s := by ring
      omega
    have e2 : b * 2 ^ (s + 1) + t = (2 * b + 1) * 2 ^ s + (t - 2 ^ s) := by
      rw [hps]
      have : b * (2 ^ s * 2) + 2 ^ s = (2 * b + 1) * 2 ^ s := by ring
      omega
    rw [e1, e2, ha _ _ hb0 hlt, ha _ _ hb1 hlt, ht']

/-! ## The worker computation as a complex butterfly -/

theorem toC_butterfly (c sn : ℝ) (same partner : Complex ℝ) :
    toC ⟨same.real + (c * partner.real) + (sn * partner.img),
        same.img + (c * partner.img) - (sn * partner.real)⟩
      = toC same + (⟨c, -sn⟩ : ℂ) * toC partner := by
  apply Complex.ext
  · simp only [toC, Complex.add_re, Complex.mul_re]
    ring
  · simp only [toC, Complex.add_im, Complex.mul_im]
    ring

/-- In complex terms a worker's value is one output of the butterfly stage
on the data slots. -/
theorem toC_workerValue (M : CMath ℝ) (seq : List (Complex ℝ)) (div j : Nat) (hd : 1 ≤ div) :
    toC (workerValue M seq div (j + 1))
      = butterflyStage (fun t => twiddleC M (M.M_PI * (t : ℝ) / (div : ℝ))) div (slotC seq) j := by
  have hj : j + 1 - 1 = j := by omega
  unfold butterflyStage workerValue
  rw [toC_butterfly]
  unfold butterfly_index twiddleC
  rw [hj]
  by_cases h : j % (div * 2) < div
  · obtain ⟨h1, h2⟩ := indices_top (j + 1) div (by omega) hd (by rw [hj]; exact h)
    rw [if_pos h, h1, h2, Int.toNat_ofNat, Int.toNat_ofNat]
    have e : j + 1 + div = j + div + 1 := by omega
    rw [e]
    rfl
  · obtain ⟨h1, h2, h3⟩ := indices_bottom (j + 1) div (by omega) hd (by rw [hj]; exact h)
    rw [if_neg h, h1, h2, Int.toNat_ofNat, Int.toNat_ofNat]
    have e : j + 1 - div = j - div + 1 := by omega
    rw [e]
    rfl

/-! ## Twiddle factors as complex exponentials -/

theorem twiddleC_forward (θ : ℝ) :
    twiddleC ⟨Real.pi, Real.cos, Real.sin⟩ θ
      = Complex.exp ((((-1 : ℤ) : ℂ)) * (θ : ℂ) * Complex.I) := by
  have h : (((-1 : ℤ) : ℂ)) * (θ : ℂ) * Complex.I = ((-θ : ℝ) : ℂ) * Complex.I := by
    push_cast; ring
  rw [h]
  apply Complex.ext
  · rw [Complex.exp_ofReal_mul_I_re]
    simp [twiddleC]
  · rw [Complex.exp_ofReal_mul_I_im]
    simp [twiddleC]

theorem twiddleC_conjugate (θ : ℝ) :
    twiddleC ⟨Real.pi, Real.cos, fun x => -Real.sin x⟩ θ
      = Complex.exp ((((1 : ℤ) : ℂ)) * (θ : ℂ) * Complex.I) := by
  have h : (((1 : ℤ) : ℂ)) * (θ : ℂ) * Complex.I = ((θ : ℝ) : ℂ) * Complex.I := by
    push_cast; ring
  rw [h]
  apply Complex.ext
  · rw [Complex.exp_ofReal_mul_I_re]
    simp [twiddleC]
  · rw [Complex.exp_ofReal_mul_I_im]
    simp [twiddleC]

theorem exp_int_turns (σ : ℤ) (q v : Nat) :
    Complex.exp ((σ : ℂ) * ((2 * Real.pi * (q : ℝ) * (v : ℝ) : ℝ) : ℂ) * Complex.I) = 1 := by
  have h : (σ : ℂ) * ((2 * Real.pi * (q : ℝ) * (v : ℝ) : ℝ) : ℂ) * Complex.I
      = ((σ * q * v : ℤ) : ℂ) * (2 * Real.pi * Complex.I) := by
    push_cast; ring
  rw [h, Complex.exp_int_mul_two_pi_mul_I]

theorem cast_mod_add_div (t s : Nat) :
    (t : ℝ) = ((t % 2 ^ s : Nat) : ℝ) + ((t / 2 ^ s : Nat) : ℝ) * (2 : ℝ) ^ s := by
  have h := Nat.mod_add_div t (2 ^ s)
  have h2 : ((t % 2 ^ s + 2 ^ s * (t / 2 ^ s) : Nat) : ℝ) = (t : ℝ) := by rw [h]
  rw [← h2]
  push_cast
  ring

/-- The kernel of an even index at stage `s + 1` is the kernel of stage `s`. -/
theorem kernel_even (M : CMath ℝ) (σ : ℤ) (hpi : M.M_PI = Real.pi)
    (hM : ∀ θ : ℝ, twiddleC M θ = Complex.exp ((σ : ℂ) * (θ : ℂ) * Complex.I))
    (s t v : Nat) :
    twiddleC M (2 * M.M_PI * (t : ℝ) * ((2 * v : Nat) : ℝ) / (2 : ℝ) ^ (s + 1))
      = twiddleC M (2 * M.M_PI * ((t % 2 ^ s : Nat) : ℝ) * (v : ℝ) / (2 : ℝ) ^ s) := by
  rw [hM, hM, hpi]
  have hp : (2 : ℝ) ^ s ≠ 0 := by positivity
  have hθ : 2 * Real.pi * (t : ℝ) * ((2 * v : Nat) : ℝ) / (2 : ℝ) ^ (s + 1)
      = 2 * Real.pi * ((t % 2 ^ s : Nat) : ℝ) * (v : ℝ) / (2 : ℝ) ^ s
        + 2 * Real.pi * ((t / 2 ^ s : Nat) : ℝ) * (v : ℝ) := by
    rw [cast_mod_add_div t s]
    push_cast
    field_simp
    ring
  rw [hθ, Complex.ofReal_add, mul_add, add_mul, Complex.exp_add, exp_int_turns, mul_one]

/-- The kernel of an odd index at stage `s + 1` is the kernel of stage `s`
times the twiddle factor of the stage. -/
theorem kernel_odd (M : CMath ℝ) (σ : ℤ) (hpi : M.M_PI = Real.pi)
    (hM : ∀ θ : ℝ, twiddleC M θ = Complex.exp ((σ : ℂ) * (θ : ℂ) * Complex.I))
    (s t v : Nat) :
    twiddleC M (2 * M.M_PI * (t : ℝ) * ((2 * v + 1 : Nat) : ℝ) / (2 : ℝ) ^ (s + 1))
      = twiddleC M (2 * M.M_PI * ((t % 2 ^ s : Nat) : ℝ) * (v : ℝ) / (2 : ℝ) ^ s)
        * twiddleC M (M.M_PI * (t : ℝ) / ((2 ^ s : Nat) : ℝ)) := by
  rw [hM, hM, hM, hpi]
  have hp : (2 : ℝ) ^ s ≠ 0 := by positivity
  have hθ : 2 * Real.pi * (t : ℝ) * ((2 * v + 1 : Nat) : ℝ) / (2 : ℝ) ^ (s + 1)
      = 2 * Real.pi * ((t % 2 ^ s : Nat) : ℝ) * (v : ℝ) / (2 : ℝ) ^ s
        + 2 * Real.pi * ((t / 2 ^ s : Nat) : ℝ) * (v : ℝ)
        + Real.pi * (t : ℝ) / ((2 ^ s : Nat) : ℝ) := by
    rw [cast_mod_add_div t s]
    push_cast
    field_simp
    ring
  rw [hθ, Complex.ofReal_add, Complex.ofReal_add, mul_add, mul_add, add_mul, add_mul,
    Complex.exp_add, Complex.exp_add, exp_int_turns, mul_one]

/-! ## The round loop computes the transform of its round-0 data -/

theorem slotC_of_getElem? (seq : List (Complex ℝ)) (j : Nat) (v : Complex ℝ)
    (h : seq[j + 1]? = some v) : slotC seq j = toC v := by
  unfold slotC
  rw [List.getD_eq_getElem?_getD, h]
  rfl

/-- For a `2^k`-point run whose round-0 data are `x` in bit-reversed order,
and twiddle factors `exp (σ θ i)`, the round loop returns, and data slot `t`
of the final sequence holds `∑ u, x u * W (2 π t u / 2^k)`. -/
theorem roundLoop_transform (M : CMath ℝ) (σ : ℤ) (hpi : M.M_PI = Real.pi)
    (hM : ∀ θ : ℝ, twiddleC M θ = Complex.exp ((σ : ℂ) * (θ : ℂ) * Complex.I))
    (k : Nat) (x : Nat → ℂ) (seq temp : List (Complex ℝ))
    (hseq : seq.length = 2 ^ k + 1) (htemp : temp.length = 2 ^ k + 1)
    (h0 : ∀ j, j < 2 ^ k → slotC seq j = x (reverseBits j k)) :
    ∃ st, roundLoop M (2 ^ k + 1) ⟨⟨2 ^ 0, k⟩, seq, temp⟩ = some st
      ∧ st.seq.length = 2 ^ k + 1
      ∧ ∀ t, t < 2 ^ k →
          slotC st.seq t
            = ∑ u in Finset.range (2 ^ k),
                x u * twiddleC M (2 * M.M_PI * (t : ℝ) * (u : ℝ) / (2 : ℝ) ^ k) := by
  have hone : twiddleC M 0 = 1 := by
    rw [hM]
    simp
  obtain ⟨st, h1, _, h3, _, h5⟩ :=
    roundLoop_induction M k
      (fun s seq => ∀ b t, b < 2 ^ (k - s) → t < 2 ^ s →
        slotC seq (b * 2 ^ s + t)
          = blockSum (fun s t u => twiddleC M (2 * M.M_PI * (t : ℝ) * (u : ℝ) / (2 : ℝ) ^ s))
              x k s b t)
      (by
        intro s seq seq' hs _ hP _ hr _
        apply butterflyStage_blockSum
          (fun s t u => twiddleC M (2 * M.M_PI * (t : ℝ) * (u : ℝ) / (2 : ℝ) ^ s))
          (fun s t => twiddleC M (M.M_PI * (t : ℝ) / ((2 ^ s : Nat) : ℝ)))
          x k s hs
          (fun t v _ _ => kernel_even M σ hpi hM s t v)
          (fun t v _ _ => kernel_odd M σ hpi hM s t v)
          (slotC seq) (slotC seq') hP
        intro j hj
        rw [slotC_of_getElem? seq' j _ (hr (j + 1) (by omega) (by omega)),
          toC_workerValue M seq (2 ^ s) j Nat.one_le_two_pow])
      k 0 ⟨⟨2 ^ 0, k⟩, seq, temp⟩ (by omega) rfl hseq htemp
      (by
        intro b t hb ht
        have ht0 : t = 0 := by
          rw [Nat.pow_zero] at ht
          omega
        subst ht0
        have hb' : b < 2 ^ k := by simpa using hb
        unfold blockSum
        rw [Nat.pow_zero, Finset.sum_range_one, Nat.mul_one, Nat.add_zero, h0 b hb']
        simp [hone])
  refine ⟨st, h1, h3, ?_⟩
  intro t ht
  have h := h5 0 t (by simp) ht
  rw [Nat.zero_mul, Nat.zero_add] at h
  rw [h]
  unfold blockSum
  apply Finset.sum_congr rfl
  intro u _
  have : reverseBits 0 (k - k) = 0 := by rw [Nat.sub_self]; rfl
  rw [this, Nat.sub_self, Nat.pow_zero, Nat.mul_one, Nat.add_zero]

/-! ## The program computes the discrete Fourier transform -/

theorem toC_real (r : ℝ) : toC ⟨r, 0⟩ = (r : ℂ) := rfl

/-- The final sequence of the program on `2^k` samples, in complex terms. -/
theorem main_transform (k : Nat) (input_values : List (Complex ℝ))
    (hlen : input_values.length = 2 ^ k + 1) :
    ∃ seq, main (⟨Real.pi, Real.cos, Real.sin⟩ : CMath ℝ) input_values = some seq
      ∧ seq.length = 2 ^ k + 1
      ∧ ∀ t, t < 2 ^ k →
          slotC seq t
            = ∑ u in Finset.range (2 ^ k),
                (((input_values.getD (u + 1) ⟨0, 0⟩).real : ℝ) : ℂ)
                  * twiddleC ⟨Real.pi, Real.cos, Real.sin⟩
                      (2 * Real.pi * (t : ℝ) * (u : ℝ) / (2 : ℝ) ^ k) := by
  obtain ⟨st, h1, h2, h3⟩ :=
    roundLoop_transform ⟨Real.pi, Real.cos, Real.sin⟩ (-1) rfl twiddleC_forward k
      (fun u => (((input_values.getD (u + 1) ⟨0, 0⟩).real : ℝ) : ℂ))
      (setRange
        (fun i => ⟨(input_values.getD (reverseBits (i - 1) k + 1) ⟨0, 0⟩).real, 0⟩)
        1 (2 ^ k) (zeroBuffer (2 ^ k + 1)))
      (zeroBuffer (2 ^ k + 1))
      (by rw [length_setRange]; simp [zeroBuffer])
      (by simp [zeroBuffer])
      (by
        intro j hj
        have hc : 1 ≤ j + 1 ∧ j + 1 < 1 + 2 ^ k
            ∧ j + 1 < (zeroBuffer (R := ℝ) (2 ^ k + 1)).length := by
          simp only [zeroBuffer, List.length_replicate]
          omega
        rw [slotC_of_getElem? _ j _ (by rw [getElem?_setRange, if_pos hc])]
        rfl)
  refine ⟨st.seq, ?_, h2, h3⟩
  rw [main_two_pow _ k input_values hlen, h1]
  rfl

/-- C1: for every `k` and every input of `2^k` samples behind the sentinel,
the program (over the reals) returns a sequence of length `2^k + 1` whose slot
`m + 1`, for every `m < 2^k`, is the discrete Fourier transform of the real
parts of the samples: real part `∑ x n * cos (2 π m n / 2^k)`, imaginary part
`∑ x n * (- sin (2 π m n / 2^k))`, where `x n` is the real part of input
sample `n + 1`. -/
theorem main_computes_dft (k : Nat) (input_values : List (Complex ℝ))
    (hlen : input_values.length = 2 ^ k + 1) :
    ∃ seq, main (⟨Real.pi, Real.cos, Real.sin⟩ : CMath ℝ) input_values = some seq
      ∧ seq.length = 2 ^ k + 1
      ∧ ∀ m, m < 2 ^ k →
          seq[m + 1]?
            = some
                ⟨∑ n in Finset.range (2 ^ k),
                    (input_values.getD (n + 1) ⟨0, 0⟩).real
                      * Real.cos (2 * Real.pi * (m : ℝ) * (n : ℝ) / (2 : ℝ) ^ k),
                  ∑ n in Finset.range (2 ^ k),
                    (input_values.getD (n + 1) ⟨0, 0⟩).real
                      * (-Real.sin (2 * Real.pi * (m : ℝ) * (n : ℝ) / (2 : ℝ) ^ k))⟩ := by
  obtain ⟨seq, h1, h2, h3⟩ := main_transform k input_values hlen
  refine ⟨seq, h1, h2, ?_⟩
  intro m hm
  have hlt : m + 1 < seq.length := by omega
  have h := h3 m hm
  unfold slotC at h
  rw [List.getD_eq_getElem _ _ hlt] at h
  rw [List.getElem?_eq_getElem hlt]
  have hre := congrArg Complex.re h
  have him := congrArg Complex.im h
  rw [Complex.re_sum] at hre
  rw [Complex.im_sum] at him
  simp only [toC, twiddleC, Complex.mul_re, Complex.mul_im, Complex.ofReal_re,
    Complex.ofReal_im, zero_mul, sub_zero, add_zero] at hre him
  rw [← hre, ← him]

theorem main_computes_dft_witness :
    ∃ seq, main (⟨Real.pi, Real.cos, Real.sin⟩ : CMath ℝ)
          [⟨0, 0⟩, ⟨1, 0⟩, ⟨2, 0⟩, ⟨3, 0⟩, ⟨4, 0⟩] = some seq
      ∧ seq.length = 2 ^ 2 + 1
      ∧ ∀ m, m < 2 ^ 2 →
          seq[m + 1]?
            = some
                ⟨∑ n in Finset.range (2 ^ 2),
                    (([⟨0, 0⟩, ⟨1, 0⟩, ⟨2, 0⟩, ⟨3, 0⟩, ⟨4, 0⟩] : List (Complex ℝ)).getD
                        (n + 1) ⟨0, 0⟩).real
                      * Real.cos (2 * Real.pi * (m : ℝ) * (n : ℝ) / (2 : ℝ) ^ 2),
                  ∑ n in Finset.range (2 ^ 2),
                    (([⟨0, 0⟩, ⟨1, 0⟩, ⟨2, 0⟩, ⟨3, 0⟩, ⟨4, 0⟩] : List (Complex ℝ)).getD
                        (n + 1) ⟨0, 0⟩).real
                      * (-Real.sin (2 * Real.pi * (m : ℝ) * (n : ℝ) / (2 : ℝ) ^ 2))⟩ :=
  main_computes_dft 2 [⟨0, 0⟩, ⟨1, 0⟩, ⟨2, 0⟩, ⟨3, 0⟩, ⟨4, 0⟩] rfl

/-! ## Round trip -/

/-- Orthogonality of the `N`-th roots of unity. -/
theorem sum_exp_turns (N : Nat) (hN : 0 < N) (d : ℤ) :
    ∑ u in Finset.range N,
        Complex.exp (2 * Real.pi * Complex.I * (d : ℂ) * (u : ℂ) / (N : ℂ))
      = if (N : ℤ) ∣ d then (N : ℂ) else 0 := by
  have hN0 : (N : ℂ) ≠ 0 := by exact_mod_cast hN.ne'
  have hpow : ∀ u : Nat,
      Complex.exp (2 * Real.pi * Complex.I * (d : ℂ) * (u : ℂ) / (N : ℂ))
        = Complex.exp (2 * Real.pi * Complex.I * (d : ℂ) / (N : ℂ)) ^ u := by
    intro u
    rw [← Complex.exp_nat_mul]
    congr 1
    ring
  simp only [hpow]
  by_cases hd : (N : ℤ) ∣ d
  · rw [if_pos hd]
    obtain ⟨q, rfl⟩ := hd
    have h1 : Complex.exp (2 * Real.pi * Complex.I * (((N : ℤ) * q : ℤ) : ℂ) / (N : ℂ)) = 1 := by
      have : 2 * Real.pi * Complex.I * (((N : ℤ) * q : ℤ) : ℂ) / (N : ℂ)
          = (q : ℂ) * (2 * Real.pi * Complex.I) := by
        push_cast
        field_simp
        ring
      rw [this, Complex.exp_int_mul_two_pi_mul_I]
    rw [h1]
    simp
  · rw [if_neg hd]
    have hne : Complex.exp (2 * Real.pi * Complex.I * (d : ℂ) / (N : ℂ)) ≠ 1 := by
      intro h
      rw [Complex.exp_eq_one_iff] at h
      obtain ⟨n, hn⟩ := h
      apply hd
      refine ⟨n, ?_⟩
      have h2pi : (2 * Real.pi * Complex.I : ℂ) ≠ 0 := by
        simp [Real.pi_ne_zero, Complex.I_ne_zero]
      have h3 : (d : ℂ) = (N : ℂ) * (n : ℂ) := by
        field_simp at hn
        have h4 : (2 * Real.pi * Complex.I) * (d : ℂ)
            = (2 * Real.pi * Complex.I) * ((N : ℂ) * (n : ℂ)) := by
          rw [hn]; ring
        exact mul_left_cancel₀ h2pi h4
      exact_mod_cast h3
    have hone : Complex.exp (2 * Real.pi * Complex.I * (d : ℂ) / (N : ℂ)) ^ N = 1 := by
      rw [← Complex.exp_nat_mul]
      have : (N : ℂ) * (2 * Real.pi * Complex.I * (d : ℂ) / (N : ℂ))
          = (d : ℂ) * (2 * Real.pi * Complex.I) := by
        field_simp
        ring
      rw [this, Complex.exp_int_mul_two_pi_mul_I]
    rw [geom_sum_eq hne, hone, sub_self, zero_div]

/-- The forward and the conjugated kernels are orthogonal. -/
theorem sum_twiddle_orthogonal (k t n : Nat) (ht : t < 2 ^ k) (hn : n < 2 ^ k) :
    ∑ u in Finset.range (2 ^ k),
        twiddleC ⟨Real.pi, Real.cos, Real.sin⟩
            (2 * Real.pi * (u : ℝ) * (n : ℝ) / (2 : ℝ) ^ k)
          * twiddleC ⟨Real.pi, Real.cos, fun x => -Real.sin x⟩
              (2 * Real.pi * (t : ℝ) * (u : ℝ) / (2 : ℝ) ^ k)
      = if n = t then ((2 ^ k : Nat) : ℂ) else 0 := by
  have hterm : ∀ u : Nat,
      twiddleC ⟨Real.pi, Real.cos, Real.sin⟩
            (2 * Real.pi * (u : ℝ) * (n : ℝ) / (2 : ℝ) ^ k)
          * twiddleC ⟨Real.pi, Real.cos, fun x => -Real.sin x⟩
              (2 * Real.pi * (t : ℝ) * (u : ℝ) / (2 : ℝ) ^ k)
        = Complex.exp (2 * Real.pi * Complex.I * (((t : ℤ) - (n : ℤ) : ℤ) : ℂ) * (u : ℂ)
            / ((2 ^ k : Nat) : ℂ)) := by
    intro u
    rw [twiddleC_forward, twiddleC_conjugate, ← Complex.exp_add]
    congr 1
    push_cast
    field_simp
    ring
  simp only [hterm]
  rw [sum_exp_turns (2 ^ k) (Nat.two_pow_pos k)]
  have hiff : ((2 ^ k : Nat) : ℤ) ∣ (t : ℤ) - (n : ℤ) ↔ n = t := by
    constructor
    · intro h
      obtain ⟨q, hq⟩ := h
      have h1 : ((2 ^ k : Nat) : ℤ) = (2 : ℤ) ^ k := by push_cast; rfl
      have hpos : (0 : ℤ) < (2 ^ k : Nat) := by exact_mod_cast Nat.two_pow_pos k
      have ht' : (t : ℤ) < (2 ^ k : Nat) := by exact_mod_cast ht
      have hn' : (n : ℤ) < (2 ^ k : Nat) := by exact_mod_cast hn
      have hq0 : q = 0 := by
        by_contra hne
        rcases lt_or_gt_of_ne hne with hlt | hgt
        · have : ((2 ^ k : Nat) : ℤ) * q ≤ ((2 ^ k : Nat) : ℤ) * (-1) :=
            mul_le_mul_of_nonneg_left (by omega) hpos.le
          omega
        · have : ((2 ^ k : Nat) : ℤ) * 1 ≤ ((2 ^ k : Nat) : ℤ) * q :=
            mul_le_mul_of_nonneg_left (by omega) hpos.le
          omega
      rw [hq0, mul_zero] at hq
      omega
    · intro h
      subst h
      simp
  simp only [hiff]

theorem bitReversalPermute_two_pow {R : Type} (k : Nat) (values : List (Complex R))
    (d : Complex R) (hlen : values.length = 2 ^ k + 1) (seq : List (Complex R)) :
    bitReversalPermute values values.length seq
      = some (setRange (fun i => values.getD (reverseBits (i - 1) k + 1) d) 1 (2 ^ k) seq) := by
  have hfold : bitReversalPermute values values.length seq
      = (List.range' 1 (values.length - 1)).foldlM
          (fun acc i =>
            (values[reverseBits (i - 1) (log2f values.length) + 1]?).bind
              fun v => some (acc.set i v))
          seq := rfl
  rw [hfold, hlen, Nat.add_sub_cancel]
  apply foldlM_set_some
  intro i h1 h2
  have hi : i - 1 < 2 ^ k := by omega
  rw [reverseBits_width k (i - 1) hi]
  have hr : reverseBits (i - 1) k + 1 < values.length := by
    have := reverseBits_lt (i - 1) k
    omega
  rw [List.getElem?_eq_getElem hr, List.getD_eq_getElem _ _ hr]

theorem inverseTransform_eq {R : Type} [Field R] (M : CMath R) (spectrum : List (Complex R)) :
    inverseTransform M spectrum
      = (bitReversalPermute spectrum spectrum.length (zeroBuffer spectrum.length)).bind
          fun seq =>
            (roundLoop (conjugateTwiddle M) spectrum.length
              ⟨initialVars spectrum.length, seq, zeroBuffer spectrum.length⟩).bind
              fun st => some (st.seq.map fun z =>
                ⟨z.real / ((spectrum.length - 1 : Nat) : R),
                  z.img / ((spectrum.length - 1 : Nat) : R)⟩) :=
  rfl

/-- The inverse network applied to the spectrum of real samples returns
`2^k` times the samples. -/
theorem sum_round_trip (k t : Nat) (ht : t < 2 ^ k) (x : Nat → ℂ) (X : Nat → ℂ)
    (hX : ∀ u, u < 2 ^ k →
      X u = ∑ n in Finset.range (2 ^ k),
        x n * twiddleC ⟨Real.pi, Real.cos, Real.sin⟩
          (2 * Real.pi * (u : ℝ) * (n : ℝ) / (2 : ℝ) ^ k)) :
    ∑ u in Finset.range (2 ^ k),
        X u * twiddleC ⟨Real.pi, Real.cos, fun x => -Real.sin x⟩
          (2 * Real.pi * (t : ℝ) * (u : ℝ) / (2 : ℝ) ^ k)
      = x t * ((2 ^ k : Nat) : ℂ) := by
  have h1 : ∀ u ∈ Finset.range (2 ^ k),
      X u * twiddleC ⟨Real.pi, Real.cos, fun x => -Real.sin x⟩
          (2 * Real.pi * (t : ℝ) * (u : ℝ) / (2 : ℝ) ^ k)
        = ∑ n in Finset.range (2 ^ k),
            x n * (twiddleC ⟨Real.pi, Real.cos, Real.sin⟩
                (2 * Real.pi * (u : ℝ) * (n : ℝ) / (2 : ℝ) ^ k)
              * twiddleC ⟨Real.pi, Real.cos, fun x => -Real.sin x⟩
                (2 * Real.pi * (t : ℝ) * (u : ℝ) / (2 : ℝ) ^ k)) := by
    intro u hu
    rw [Finset.mem_range] at hu
    rw [hX u hu, Finset.sum_mul]
    apply Finset.sum_congr rfl
    intro n _
    ring
  rw [Finset.sum_congr rfl h1, Finset.sum_comm]
  have h2 : ∀ n ∈ Finset.range (2 ^ k),
      ∑ u in Finset.range (2 ^ k),
          x n * (twiddleC ⟨Real.pi, Real.cos, Real.sin⟩
              (2 * Real.pi * (u : ℝ) * (n : ℝ) / (2 : ℝ) ^ k)
            * twiddleC ⟨Real.pi, Real.cos, fun x => -Real.sin x⟩
              (2 * Real.pi * (t : ℝ) * (u : ℝ) / (2 : ℝ) ^ k))
        = if n = t then x t * ((2 ^ k : Nat) : ℂ) else 0 := by
    intro n hn
    rw [Finset.mem_range] at hn
    rw [← Finset.mul_sum, sum_twiddle_orthogonal k t n ht hn]
    by_cases h : n = t
    · rw [if_pos h, if_pos h, h]
    · rw [if_neg h, if_neg h, mul_zero]
  rw [Finset.sum_congr rfl h2, Finset.sum_ite_eq' , if_pos (Finset.mem_range.mpr ht)]

/-- The round trip through the program and the inverse transform. -/
theorem round_trip_eval (k : Nat) (input_values : List (Complex ℝ))
    (hlen : input_values.length = 2 ^ k + 1) :
    ∃ spectrum out,
      main (⟨Real.pi, Real.cos, Real.sin⟩ : CMath ℝ) input_values = some spectrum
        ∧ inverseTransform (⟨Real.pi, Real.cos, Real.sin⟩ : CMath ℝ) spectrum = some out
        ∧ out.length = 2 ^ k + 1
        ∧ ∀ i, 1 ≤ i → i ≤ 2 ^ k →
            out[i]? = (input_values[i]?).map fun z => ⟨z.real, 0⟩ := by
  obtain ⟨X, hX, hXlen, hXs⟩ := main_transform k input_values hlen
  obtain ⟨st, h1, h2, h3⟩ :=
    roundLoop_transform ⟨Real.pi, Real.cos, fun x => -Real.sin x⟩ 1 rfl twiddleC_conjugate k
      (slotC X)
      (setRange (fun i => X.getD (reverseBits (i - 1) k + 1) ⟨0, 0⟩) 1 (2 ^ k)
        (zeroBuffer (2 ^ k + 1)))
      (zeroBuffer (2 ^ k + 1))
      (by rw [length_setRange]; simp [zeroBuffer])
      (by simp [zeroBuffer])
      (by
        intro j hj
        have hc : 1 ≤ j + 1 ∧ j + 1 < 1 + 2 ^ k
            ∧ j + 1 < (zeroBuffer (R := ℝ) (2 ^ k + 1)).length := by
          simp only [zeroBuffer, List.length_replicate]
          omega
        rw [slotC_of_getElem? _ j _ (by rw [getElem?_setRange, if_pos hc])]
        rfl)
  refine ⟨X, st.seq.map fun z =>
    ⟨z.real / ((X.length - 1 : Nat) : ℝ), z.img / ((X.length - 1 : Nat) : ℝ)⟩, hX, ?_, ?_, ?_⟩
  · rw [inverseTransform_eq, bitReversalPermute_two_pow k X ⟨0, 0⟩ hXlen, Option.some_bind,
      hXlen]
    have hv : initialVars (2 ^ k + 1) = ⟨2 ^ 0, k⟩ := by
      simp only [initialVars, Nat.add_sub_cancel, log2f_two_pow, Nat.pow_zero]
    have hc : conjugateTwiddle (⟨Real.pi, Real.cos, Real.sin⟩ : CMath ℝ)
        = ⟨Real.pi, Real.cos, fun x => -Real.sin x⟩ := rfl
    rw [hv, hc, h1, Option.some_bind]
  · rw [List.length_map, h2]
  · intro i hi1 hi2
    have hlt : i < st.seq.length := by omega
    have hlt' : i < input_values.length := by omega
    have ht : i - 1 < 2 ^ k := by omega
    have hi : i - 1 + 1 = i := by omega
    have hsum := h3 (i - 1) ht
    rw [sum_round_trip k (i - 1) ht
      (fun u => (((input_values.getD (u + 1) ⟨0, 0⟩).real : ℝ) : ℂ)) (slotC X) hXs] at hsum
    unfold slotC at hsum
    rw [hi, List.getD_eq_getElem _ _ hlt, List.getD_eq_getElem _ _ hlt'] at hsum
    have hre := congrArg Complex.re hsum
    have him := congrArg Complex.im hsum
    have hcast : ((2 ^ k : Nat) : ℂ) = (((2 : ℝ) ^ k : ℝ) : ℂ) := by push_cast; rfl
    rw [hcast] at hre him
    simp only [toC, Complex.mul_re, Complex.mul_im, Complex.ofReal_re, Complex.ofReal_im,
      zero_mul, mul_zero, sub_zero, add_zero] at hre him
    rw [List.getElem?_map, List.getElem?_eq_getElem hlt, List.getElem?_eq_getElem hlt',
      Option.map_some', Option.map_some', hre, him]
    have hp : (2 : ℝ) ^ k ≠ 0 := by positivity
    have hden : ((X.length - 1 : Nat) : ℝ) = (2 : ℝ) ^ k := by
      rw [hXlen, Nat.add_sub_cancel]; push_cast; rfl
    rw [hden, zero_div, mul_div_assoc, div_self hp, mul_one]

/-- C10, as stated, fails: for the single sample `(1, 1)` the round trip
through the program and the inverse transform does not give back the sample. -/
theorem round_trip_loses_imaginary_part :
    ¬ ∃ spectrum out,
        main (⟨Real.pi, Real.cos, Real.sin⟩ : CMath ℝ) [⟨0, 0⟩, ⟨1, 1⟩] = some spectrum
          ∧ inverseTransform (⟨Real.pi, Real.cos, Real.sin⟩ : CMath ℝ) spectrum = some out
          ∧ out[1]? = some ⟨1, 1⟩ := by
  rintro ⟨spectrum, out, h1, h2, h3⟩
  obtain ⟨X, out', e1, e2, _, e4⟩ := round_trip_eval 0 [⟨0, 0⟩, ⟨1, 1⟩] rfl
  rw [e1] at h1
  cases h1
  rw [e2] at h2
  cases h2
  rw [e4 1 (by decide) (by decide)] at h3
  simp at h3

/-- C10 (amended): for every `k` and every input of `2^k` samples, the
program followed by the inverse transform (bit-reversal reordering, the round
loop with conjugated twiddle factors, division by `N - 1`), over the reals,
returns in every slot `1 ≤ i ≤ N - 1` the real part of input sample `i` with
imaginary part 0; hence it reproduces the input samples when all their
imaginary parts are 0. -/
theorem round_trip_real_parts (k : Nat) (input_values : List (Complex ℝ))
    (hlen : input_values.length = 2 ^ k + 1) :
    ∃ spectrum out,
      main (⟨Real.pi, Real.cos, Real.sin⟩ : CMath ℝ) input_values = some spectrum
        ∧ inverseTransform (⟨Real.pi, Real.cos, Real.sin⟩ : CMath ℝ) spectrum = some out
        ∧ out.length = 2 ^ k + 1
        ∧ (∀ i, 1 ≤ i → i ≤ 2 ^ k →
            out[i]? = (input_values[i]?).map fun z => ⟨z.real, 0⟩)
        ∧ ((∀ z ∈ input_values.tail, z.img = 0) → out.tail = input_values.tail) := by
  obtain ⟨X, out, h1, h2, h3, h4⟩ := round_trip_eval k input_values hlen
  refine ⟨X, out, h1, h2, h3, h4, ?_⟩
  intro himg
  apply List.ext_getElem?
  intro n
  rw [List.getElem?_tail, List.getElem?_tail]
  by_cases hn : n < 2 ^ k
  · rw [h4 (n + 1) (by omega) (by omega)]
    have hlt : n + 1 < input_values.length := by omega
    rw [List.getElem?_eq_getElem hlt, Option.map_some']
    have hmem : input_values[n + 1] ∈ input_values.tail := by
      rw [List.mem_iff_getElem?]
      exact ⟨n, by rw [List.getElem?_tail, List.getElem?_eq_getElem hlt]⟩
    have h0 := himg _ hmem
    congr 1
    cases hz : input_values[n + 1] with
    | mk re im =>
      rw [hz] at h0
      simp only at h0
      rw [h0]
  · rw [List.getElem?_eq_none (by omega), List.getElem?_eq_none (by omega)]

theorem round_trip_real_parts_witness :
    ∃ spectrum out,
      main (⟨Real.pi, Real.cos, Real.sin⟩ : CMath ℝ)
          [⟨0, 0⟩, ⟨1, 5⟩, ⟨2, 0⟩, ⟨3, -1⟩, ⟨4, 0⟩] = some spectrum
        ∧ inverseTransform (⟨Real.pi, Real.cos, Real.sin⟩ : CMath ℝ) spectrum = some out
        ∧ out.length = 2 ^ 2 + 1
        ∧ (∀ i, 1 ≤ i → i ≤ 2 ^ 2 →
            out[i]?
              = (([⟨0, 0⟩, ⟨1, 5⟩, ⟨2, 0⟩, ⟨3, -1⟩, ⟨4, 0⟩] : List (Complex ℝ))[i]?).map
                  fun z => ⟨z.real, 0⟩)
        ∧ ((∀ z ∈ ([⟨0, 0⟩, ⟨1, 5⟩, ⟨2, 0⟩, ⟨3, -1⟩, ⟨4, 0⟩] : List (Complex ℝ)).tail,
              z.img = 0)
            → out.tail = ([⟨0, 0⟩, ⟨1, 5⟩, ⟨2, 0⟩, ⟨3, -1⟩, ⟨4, 0⟩] : List (Complex ℝ)).tail) :=
  round_trip_real_parts 2 [⟨0, 0⟩, ⟨1, 5⟩, ⟨2, 0⟩, ⟨3, -1⟩, ⟨4, 0⟩] rfl

/-! ## Reading the input -/

theorem pairFields_cons {R : Type} (p : R × R) (pairs : List (R × R)) :
    pairFields (p :: pairs) = .number p.1 :: .number p.2 :: pairFields pairs := by
  simp [pairFields]

theorem readSamples_pairFields {R : Type} (pairs : List (R × R)) :
    ∀ result : List (Complex R),
      readSamples (pairFields pairs) result
        = result ++ pairs.map fun p => ⟨p.1, p.2⟩ := by
  induction pairs with
  | nil =>
    intro result
    simp [pairFields, readSamples]
  | cons p pairs ih =>
    intro result
    rw [pairFields_cons, readSamples, ih]
    simp

theorem getInputValues_pairs {R : Type} [Zero R] (pairs : List (R × R))
    (input_size root_value : Nat) :
    getInputValues 0 (some (pairFields pairs)) input_size root_value
      = ⟨⟨0, 0⟩ :: pairs.map fun p => ⟨p.1, p.2⟩, pairs.length + 1, true⟩ := by
  simp [getInputValues, readSamples_pairFields]

/-- C12: for an input file that holds `m` pairs `real img`, `getInputValues`
on the coordinator returns `m + 1` samples, the sentinel `(0,0)` at index 0
and the `i`-th pair of the file at index `i` for `1 ≤ i ≤ m`, sets
`global::input_size` to `m + 1`, and takes part in the broadcast of it. -/
theorem getInputValues_reads_pairs {R : Type} [Zero R] (pairs : List (R × R))
    (input_size root_value : Nat) :
    (getInputValues 0 (some (pairFields pairs)) input_size root_value).result.length
        = pairs.length + 1
      ∧ (getInputValues 0 (some (pairFields pairs)) input_size root_value).result[0]?
        = some ⟨0, 0⟩
      ∧ (∀ i, 1 ≤ i → i ≤ pairs.length →
          (getInputValues 0 (some (pairFields pairs)) input_size root_value).result[i]?
            = (pairs[i - 1]?).map fun p => ⟨p.1, p.2⟩)
      ∧ (getInputValues 0 (some (pairFields pairs)) input_size root_value).input_size
        = pairs.length + 1
      ∧ (getInputValues 0 (some (pairFields pairs)) input_size root_value).broadcast = true := by
  rw [getInputValues_pairs]
  refine ⟨by simp, by simp, ?_, by simp, by simp⟩
  intro i h1 _
  obtain ⟨j, rfl⟩ : ∃ j, i = j + 1 := ⟨i - 1, by omega⟩
  simp

theorem getInputValues_reads_pairs_witness :
    (getInputValues 0 (some (pairFields [((1 : ℚ), 5), (2, 6), (3, 7)])) 0 0).result.length
        = [((1 : ℚ), (5 : ℚ)), (2, 6), (3, 7)].length + 1
      ∧ (getInputValues 0 (some (pairFields [((1 : ℚ), 5), (2, 6), (3, 7)])) 0 0).result[0]?
        = some ⟨0, 0⟩
      ∧ (∀ i, 1 ≤ i → i ≤ [((1 : ℚ), (5 : ℚ)), (2, 6), (3, 7)].length →
          (getInputValues 0 (some (pairFields [((1 : ℚ), 5), (2, 6), (3, 7)])) 0 0).result[i]?
            = ([((1 : ℚ), (5 : ℚ)), (2, 6), (3, 7)][i - 1]?).map fun p => ⟨p.1, p.2⟩)
      ∧ (getInputValues 0 (some (pairFields [((1 : ℚ), 5), (2, 6), (3, 7)])) 0 0).input_size
        = [((1 : ℚ), (5 : ℚ)), (2, 6), (3, 7)].length + 1
      ∧ (getInputValues 0 (some (pairFields [((1 : ℚ), 5), (2, 6), (3, 7)])) 0 0).broadcast
        = true :=
  getInputValues_reads_pairs [((1 : ℚ), 5), (2, 6), (3, 7)] 0 0

/-- C13 (the code departs from it): when the file cannot be opened the
coordinator returns the empty vector and leaves `global::input_size` at its
initial value 0, but it returns before the broadcast of `input_size`, while
every other process enters that broadcast, and so does the coordinator itself
whenever the file can be opened. -/
theorem getInputValues_unopened_skips_broadcast {R : Type} [Zero R] (root_value : Nat) :
    (getInputValues (R := R) 0 none 0 root_value).result = []
      ∧ (getInputValues (R := R) 0 none 0 root_value).input_size = 0
      ∧ (getInputValues (R := R) 0 none 0 root_value).broadcast = false
      ∧ (∀ rank, rank ≠ 0 → (getInputValues (R := R) rank none 0 root_value).broadcast = true)
      ∧ (∀ fields : List (StreamField R),
          (getInputValues 0 (some fields) 0 root_value).broadcast = true) := by
  refine ⟨rfl, rfl, rfl, ?_, ?_⟩
  · intro rank hr
    simp [getInputValues, hr]
  · intro fields
    rfl

/-! ## Reporting the result -/

theorem showEntry_eq {R : Type} [LinearOrderedField R] (seq : List (Complex R))
    (out : List (Printed R)) (i : Nat) (z : Complex R) (h : seq[i]? = some z) :
    showEntry seq out i
      = some (out ++ [.label (i - 1) z.real,
          if 0 ≤ z.img then .plusJ z.img else .minusJ (imgMinusTwiceImg z.img)]) := by
  unfold showEntry
  rw [h]
  by_cases hz : 0 ≤ z.img
  · simp [hz]
  · simp [hz]

theorem foldlM_showEntry {R : Type} [LinearOrderedField R] (seq : List (Complex R)) :
    ∀ (m s : Nat) (out : List (Printed R)), (∀ i, s ≤ i → i < s + m → i < seq.length) →
      (List.range' s m).foldlM (showEntry seq) out
        = some (out ++ (List.range' s m).flatMap fun i =>
            [.label (i - 1) (seq.getD i ⟨0, 0⟩).real,
              if 0 ≤ (seq.getD i ⟨0, 0⟩).img then .plusJ (seq.getD i ⟨0, 0⟩).img
              else .minusJ (imgMinusTwiceImg (seq.getD i ⟨0, 0⟩).img)]) := by
  intro m
  induction m with
  | zero => intro s out _; simp
  | succ m ih =>
    intro s out hs
    have hlt : s < seq.length := hs s (Nat.le_refl s) (by omega)
    rw [List.range'_succ, List.foldlM_cons,
      showEntry_eq seq out s seq[s] (List.getElem?_eq_getElem hlt)]
    simp only [Option.bind_eq_bind, Option.some_bind]
    rw [ih (s + 1) _ (fun i h1 h2 => hs i (by omega) (by omega)), List.flatMap_cons,
      List.getD_eq_getElem _ _ hlt]
    simp

/-- The `printf` calls of `showResults` on the coordinator. -/
theorem showResults_eq {R : Type} [LinearOrderedField R] (seq : List (Complex R))
    (starttime endtime : R) :
    showResults 0 seq.length seq starttime endtime
      = some ([.newline]
          ++ ((List.range (seq.length - 1)).flatMap fun i =>
              [.label i (seq.getD (i + 1) ⟨0, 0⟩).real,
                if 0 ≤ (seq.getD (i + 1) ⟨0, 0⟩).img then
                  .plusJ (seq.getD (i + 1) ⟨0, 0⟩).img
                else .minusJ (imgMinusTwiceImg (seq.getD (i + 1) ⟨0, 0⟩).img)])
          ++ [.newline, .totalTime ((endtime - starttime) * 1000), .newline]) := by
  unfold showResults
  rw [if_pos rfl]
  have hfold := foldlM_showEntry seq (seq.length - 1) 1 [.newline]
    (fun i h1 h2 => by omega)
  simp only [bind, Option.bind_eq_bind] at hfold ⊢
  rw [hfold, Option.some_bind]
  congr 2
  rw [List.range'_eq_map_range, List.flatMap_map]
  congr 1
  congr 1
  funext i
  have h1 : 1 + i - 1 = i := by omega
  have h2 : 1 + i = i + 1 := by omega
  simp only [Function.comp, h1, h2, Nat.add_sub_cancel]

theorem imgMinusTwiceImg_of_finite {R : Type} [LinearOrderedField R] (img : R)
    (hlo : -FLT_MAX ≤ 2 * img) (hhi : 2 * img ≤ FLT_MAX) :
    imgMinusTwiceImg img = .finite (-img) := by
  unfold imgMinusTwiceImg floatDouble
  rw [if_neg (not_lt.mpr hhi), if_neg (not_lt.mpr hlo)]
  show FloatResult.finite (img - 2 * img) = FloatResult.finite (-img)
  congr 1
  ring

theorem imgMinusTwiceImg_of_overflow {R : Type} [LinearOrderedField R] (img : R)
    (h : 2 * img < -FLT_MAX) : imgMinusTwiceImg img = .posInf := by
  have hpos : (0 : R) < FLT_MAX := by
    unfold FLT_MAX
    norm_num
  have hlt : ¬ FLT_MAX < 2 * img := by
    intro h2
    have := lt_trans h2 h
    linarith
  unfold imgMinusTwiceImg floatDouble
  rw [if_neg hlt, if_pos h]

/-- C14 (the code departs from it): over the reals, the input
`0, 2e38, 0, 0` gives the final sequence with `seq[2] = (0, -2e38)`, and
`showResults` prints for `X[1]` the separator `-j` followed by `+inf`, because
the float product `2 * img` overflows, where the claim says the negation
`2e38`. The general form of the output is as claimed: on the coordinator a
newline, then for `i = 0 .. N - 2` in increasing order the label `X[i]` with
the real part of `seq[i + 1]` followed by `+j` and the imaginary part when it
is `≥ 0` and by `-j` and `img - 2 * img` otherwise, then the closing lines, and
nothing on any other process; `img - 2 * img` is the negation `-img` as long
as `2 * img` is finite. -/
theorem showResults_negation_overflows (starttime endtime : ℝ) :
    main (⟨Real.pi, Real.cos, Real.sin⟩ : CMath ℝ)
        [⟨0, 0⟩, ⟨0, 0⟩, ⟨2 * 10 ^ 38, 0⟩, ⟨0, 0⟩, ⟨0, 0⟩]
        = some [⟨0, 0⟩, ⟨2 * 10 ^ 38, 0⟩, ⟨0, -(2 * 10 ^ 38)⟩, ⟨-(2 * 10 ^ 38), 0⟩,
            ⟨0, 2 * 10 ^ 38⟩]
      ∧ showResults 0 5
          [⟨0, 0⟩, ⟨2 * 10 ^ 38, 0⟩, ⟨0, -(2 * 10 ^ 38)⟩, ⟨-(2 * 10 ^ 38), 0⟩,
            ⟨0, 2 * 10 ^ 38⟩] starttime endtime
        = some [.newline, .label 0 (2 * 10 ^ 38), .plusJ 0, .label 1 0, .minusJ .posInf,
            .label 2 (-(2 * 10 ^ 38)), .plusJ 0, .label 3 0, .plusJ (2 * 10 ^ 38),
            .newline, .totalTime ((endtime - starttime) * 1000), .newline]
      ∧ (∀ seq : List (Complex ℝ),
          showResults 0 seq.length seq starttime endtime
            = some ([.newline]
                ++ ((List.range (seq.length - 1)).flatMap fun i =>
                    [.label i (seq.getD (i + 1) ⟨0, 0⟩).real,
                      if 0 ≤ (seq.getD (i + 1) ⟨0, 0⟩).img then
                        .plusJ (seq.getD (i + 1) ⟨0, 0⟩).img
                      else .minusJ (imgMinusTwiceImg (seq.getD (i + 1) ⟨0, 0⟩).img)])
                ++ [.newline, .totalTime ((endtime - starttime) * 1000), .newline]))
      ∧ (∀ (seq : List (Complex ℝ)) rank, rank ≠ 0 →
          showResults rank seq.length seq starttime endtime = some [])
      ∧ (∀ img : ℝ, -FLT_MAX ≤ 2 * img → 2 * img ≤ FLT_MAX →
          imgMinusTwiceImg img = .finite (-img))
      ∧ (∀ img : ℝ, 2 * img < -FLT_MAX → imgMinusTwiceImg img = .posInf) := by
  refine ⟨?_, ?_, fun seq => showResults_eq seq starttime endtime, ?_,
    imgMinusTwiceImg_of_finite, imgMinusTwiceImg_of_overflow⟩
  · rw [main_four_samples]
    norm_num
  · have h := showResults_eq
      ([⟨0, 0⟩, ⟨2 * 10 ^ 38, 0⟩, ⟨0, -(2 * 10 ^ 38)⟩, ⟨-(2 * 10 ^ 38), 0⟩,
        ⟨0, 2 * 10 ^ 38⟩] : List (Complex ℝ)) starttime endtime
    have hinf : imgMinusTwiceImg (-(2 * 10 ^ 38) : ℝ) = .posInf := by
      apply imgMinusTwiceImg_of_overflow
      unfold FLT_MAX
      norm_num
    have e : ([⟨0, 0⟩, ⟨2 * 10 ^ 38, 0⟩, ⟨0, -(2 * 10 ^ 38)⟩, ⟨-(2 * 10 ^ 38), 0⟩,
        ⟨0, 2 * 10 ^ 38⟩] : List (Complex ℝ)).length = 5 := rfl
    rw [e] at h
    rw [h]
    have hr : List.range (5 - 1) = [0, 1, 2, 3] := by decide
    rw [hr]
    simp [hinf]
  · intro seq rank hr
    unfold showResults
    rw [if_neg (fun h => hr h.symm)]

/-! ## Wing selection, index safety and the butterfly of a pair -/

/-- C16: for every rank `r ≥ 1` and stride `div ≥ 1`, `is_even` is 0 or 1 and
`is_odd = 1 - is_even`; when `is_even = 1` the same-side index is `r` and the
partner index is `r + div`, otherwise the same-side index is `r - div` and the
partner index is `r`; so exactly one of the two indices equals `r`; and
`is_even = 1` holds exactly when `(r - 1) mod (2 * div) < div`. -/
theorem wing_selection (r div : Nat) (hr : 1 ≤ r) (hd : 1 ≤ div) :
    (is_even r div = 1 ∨ is_even r div = 0)
      ∧ is_odd r div = 1 - is_even r div
      ∧ (is_even r div = 1 →
          sameSideIndex r div = (r : Int) ∧ partnerIndex r div = (r : Int) + (div : Int))
      ∧ (is_even r div ≠ 1 →
          sameSideIndex r div = (r : Int) - (div : Int) ∧ partnerIndex r div = (r : Int))
      ∧ ((sameSideIndex r div = (r : Int) ∧ partnerIndex r div ≠ (r : Int))
          ∨ (sameSideIndex r div ≠ (r : Int) ∧ partnerIndex r div = (r : Int)))
      ∧ (is_even r div = 1 ↔ (r - 1) % (2 * div) < div) := by
  have he := is_even_eq r div hr hd
  have hd' : (1 : Int) ≤ (div : Int) := by exact_mod_cast hd
  by_cases h : (r - 1) % (div * 2) < div
  · rw [if_pos h] at he
    obtain ⟨h1, h2⟩ := indices_top r div hr hd h
    have h2' : partnerIndex r div = (r : Int) + (div : Int) := by rw [h2]; push_cast; rfl
    refine ⟨Or.inl he, rfl, fun _ => ⟨h1, h2'⟩, fun hne => absurd he hne, ?_, ?_⟩
    · left
      refine ⟨h1, ?_⟩
      rw [h2']
      omega
    · rw [Nat.mul_comm 2 div]
      exact ⟨fun _ => h, fun _ => he⟩
  · rw [if_neg h] at he
    obtain ⟨h1, h2, h3⟩ := indices_bottom r div hr hd h
    have h1' : sameSideIndex r div = (r : Int) - (div : Int) := by
      rw [h1]
      push_cast [Nat.cast_sub (by omega : div ≤ r)]
      rfl
    refine ⟨Or.inr he, rfl, fun h1e => ?_, fun _ => ⟨h1', h2⟩, ?_, ?_⟩
    · rw [he] at h1e
      cases h1e
    · right
      refine ⟨?_, h2⟩
      rw [h1']
      omega
    · rw [Nat.mul_comm 2 div]
      constructor
      · intro h1e
        rw [he] at h1e
        cases h1e
      · intro hlt
        exact absurd hlt h

theorem wing_selection_witness :
    (is_even 6 2 = 1 ∨ is_even 6 2 = 0)
      ∧ is_odd 6 2 = 1 - is_even 6 2
      ∧ (is_even 6 2 = 1 →
          sameSideIndex 6 2 = ((6 : Nat) : Int)
            ∧ partnerIndex 6 2 = ((6 : Nat) : Int) + ((2 : Nat) : Int))
      ∧ (is_even 6 2 ≠ 1 →
          sameSideIndex 6 2 = ((6 : Nat) : Int) - ((2 : Nat) : Int)
            ∧ partnerIndex 6 2 = ((6 : Nat) : Int))
      ∧ ((sameSideIndex 6 2 = ((6 : Nat) : Int) ∧ partnerIndex 6 2 ≠ ((6 : Nat) : Int))
          ∨ (sameSideIndex 6 2 ≠ ((6 : Nat) : Int) ∧ partnerIndex 6 2 = ((6 : Nat) : Int)))
      ∧ (is_even 6 2 = 1 ↔ (6 - 1) % (2 * 2) < 2) :=
  wing_selection 6 2 (by decide) (by decide)

/-- C17: for `N - 1 = 2^k`, every stride `2^s` with `s < k` and every worker
rank `1 ≤ r ≤ N - 1`, both indices the worker reads lie in `[1, N - 1]`, so
both reads succeed on a sequence of length `N` and slot 0 is never read; and
every index `reverseBits (i - 1) max_bit_width + 1` that the bit-reversal step
reads, for `1 ≤ i ≤ N - 1` and `max_bit_width = log2f N`, lies in
`[1, N - 1]`. -/
theorem reads_stay_in_data_slots (R : Type) [Zero R] (N k : Nat) (hN : N - 1 = 2 ^ k) :
    (∀ s r, s < k → 1 ≤ r → r ≤ N - 1 →
        1 ≤ sameSideIndex r (2 ^ s) ∧ sameSideIndex r (2 ^ s) ≤ ((N - 1 : Nat) : Int)
          ∧ 1 ≤ partnerIndex r (2 ^ s) ∧ partnerIndex r (2 ^ s) ≤ ((N - 1 : Nat) : Int))
      ∧ (∀ (seq : List (Complex R)) s r, seq.length = N → s < k → 1 ≤ r → r ≤ N - 1 →
          (readAt seq (sameSideIndex r (2 ^ s))).isSome = true
            ∧ (readAt seq (partnerIndex r (2 ^ s))).isSome = true)
      ∧ (∀ i, 1 ≤ i → i ≤ N - 1 →
          1 ≤ reverseBits (i - 1) (log2f N) + 1
            ∧ reverseBits (i - 1) (log2f N) + 1 ≤ N - 1) := by
  have hN' : N = 2 ^ k + 1 := by
    have := Nat.two_pow_pos k
    omega
  subst hN'
  rw [Nat.add_sub_cancel]
  refine ⟨?_, ?_, ?_⟩
  · intro s r hs h1 h2
    exact indices_in_range k s r hs h1 h2
  · intro seq s r hlen hs h1 h2
    obtain ⟨a, b, c, d⟩ := indices_in_range k s r hs h1 h2
    rw [readAt_eq_getD seq _ ⟨0, 0⟩ (by omega) (by omega),
      readAt_eq_getD seq _ ⟨0, 0⟩ (by omega) (by omega)]
    exact ⟨rfl, rfl⟩
  · intro i h1 h2
    rw [reverseBits_width k (i - 1) (by omega)]
    have := reverseBits_lt (i - 1) k
    omega

theorem reads_stay_in_data_slots_witness :
    5 - 1 = 2 ^ 2
      ∧ (∀ s r, s < 2 → 1 ≤ r → r ≤ 5 - 1 →
          1 ≤ sameSideIndex r (2 ^ s) ∧ sameSideIndex r (2 ^ s) ≤ ((5 - 1 : Nat) : Int)
            ∧ 1 ≤ partnerIndex r (2 ^ s) ∧ partnerIndex r (2 ^ s) ≤ ((5 - 1 : Nat) : Int)) :=
  ⟨by decide, (reads_stay_in_data_slots ℚ 5 2 (by decide)).1⟩

theorem workerCompute_partner_outside {R : Type} [Field R] (M : CMath R)
    (seq : List (Complex R)) (div rank : Nat) (hr : 1 ≤ rank) (hd : 1 ≤ div)
    (htop : (rank - 1) % (div * 2) < div) (hout : seq.length ≤ rank + div) :
    workerCompute M seq div rank = none := by
  obtain ⟨_, h2⟩ := indices_top rank div hr hd htop
  have hp : readAt seq (partnerIndex rank div) = none := by
    unfold readAt
    rw [h2, if_neg (by omega), Int.toNat_ofNat]
    exact List.getElem?_eq_none hout
  unfold workerCompute
  rw [hp]
  cases readAt seq (sameSideIndex rank div) <;> rfl

/-- When `N - 1 ≥ 3` is not a power of two, the last stage has a worker of the
upper wing whose partner lies beyond slot `N - 1`. -/
theorem exists_partner_outside (n : Nat) (hn : 3 ≤ n) (hnp : ∀ k, n ≠ 2 ^ k) :
    ∃ s r, s < log2f n ∧ 1 ≤ r ∧ r ≤ n ∧ (r - 1) % (2 ^ s * 2) < 2 ^ s ∧ n < r + 2 ^ s := by
  have hK1 : 2 ^ log2f n ≤ n := Nat.pow_log_le_self 2 (by omega)
  have hK2 : n < 2 ^ (log2f n + 1) := Nat.lt_pow_succ_log_self (by decide) n
  have hKpos : 0 < log2f n := Nat.log_pos (by decide) (by omega)
  have hne : n ≠ 2 ^ log2f n := hnp _
  obtain ⟨s, hs⟩ : ∃ s, log2f n = s + 1 := ⟨log2f n - 1, by omega⟩
  rw [hs] at hK1 hK2 hne
  rw [Nat.pow_succ] at hK1 hK2 hne
  rw [Nat.pow_succ] at hK2
  have hD : 0 < 2 ^ s := Nat.two_pow_pos s
  by_cases hm : n - 2 ^ s * 2 ≤ 2 ^ s
  · refine ⟨s, 2 ^ s * 2 + 1, by omega, by omega, by omega, ?_, by omega⟩
    rw [Nat.add_sub_cancel, Nat.mod_self]
    exact hD
  · refine ⟨s, n - 2 ^ s + 1, by omega, by omega, by omega, ?_, by omega⟩
    rw [Nat.add_sub_cancel]
    have hj : n - 2 ^ s = 2 ^ s * 2 + (n - 2 ^ s * 2 - 2 ^ s) := by omega
    rw [hj, Nat.add_mod_left, Nat.mod_eq_of_lt (by omega)]
    omega

/-- C18: for every `N ≥ 4` such that `N - 1` is not a power of two there are a
stage `s < log2f (N - 1)` and a worker rank `1 ≤ r ≤ N - 1` whose partner
index `r + div * is_even` is greater than `N - 1`; on a sequence of length `N`
that worker's computation reads outside the buffer. For `N - 1 = 3`, stride 1
and rank 3 the partner index is 4. -/
theorem partner_index_out_of_range {R : Type} [Field R] (M : CMath R) (N : Nat)
    (hN : 4 ≤ N) (hnp : ∀ k, N - 1 ≠ 2 ^ k) :
    (∃ s r, s < log2f (N - 1) ∧ 1 ≤ r ∧ r ≤ N - 1
        ∧ ((N - 1 : Nat) : Int) < partnerIndex r (2 ^ s)
        ∧ ∀ seq : List (Complex R), seq.length = N → workerCompute M seq (2 ^ s) r = none)
      ∧ partnerIndex 3 1 = 4 := by
  refine ⟨?_, by decide⟩
  obtain ⟨s, r, h1, h2, h3, h4, h5⟩ := exists_partner_outside (N - 1) (by omega) hnp
  refine ⟨s, r, h1, h2, h3, ?_, ?_⟩
  · obtain ⟨_, hp⟩ := indices_top r (2 ^ s) h2 Nat.one_le_two_pow h4
    rw [hp]
    exact_mod_cast h5
  · intro seq hlen
    exact workerCompute_partner_outside M seq (2 ^ s) r h2 Nat.one_le_two_pow h4 (by omega)

theorem partner_index_out_of_range_witness :
    4 ≤ 4 ∧ (∀ k, 4 - 1 ≠ 2 ^ k)
      ∧ ∃ s r, s < log2f (4 - 1) ∧ 1 ≤ r ∧ r ≤ 4 - 1
          ∧ ((4 - 1 : Nat) : Int) < partnerIndex r (2 ^ s)
          ∧ ∀ seq : List (Complex ℚ), seq.length = 4 →
              workerCompute (⟨0, id, id⟩ : CMath ℚ) seq (2 ^ s) r = none :=
  have hnp : ∀ k, 4 - 1 ≠ 2 ^ k := by
    intro k hk
    cases k with
    | zero => simp at hk
    | succ k =>
      have h2 : 2 ∣ 2 ^ (k + 1) := Dvd.intro_left _ rfl
      rw [← hk] at h2
      revert h2
      decide
  ⟨by decide, hnp, (partner_index_out_of_range ⟨0, id, id⟩ 4 (by decide) hnp).1⟩

theorem twiddleC_add_pi (θ : ℝ) :
    twiddleC ⟨Real.pi, Real.cos, Real.sin⟩ (θ + Real.pi)
      = -(⟨Real.cos θ, -Real.sin θ⟩ : ℂ) := by
  apply Complex.ext
  · simp [twiddleC, Real.cos_add_pi]
  · simp [twiddleC, Real.sin_add_pi]

/-- C15: for `N - 1 = 2^k`, a stride `div = 2^s` with `s < k` and a rank
`1 ≤ r ≤ N - 1` with `t = (r - 1) mod (2 * div) < div`, writing
`W = cos (π t / div) - i sin (π t / div)`, the workers `r` and `r + div`
compute from a sequence of length `N` (over the reals) the values
`seq[r] + W * seq[r + div]` and `seq[r] - W * seq[r + div]`. -/
theorem worker_pair_butterfly (k s r : Nat) (seq : List (Complex ℝ))
    (hlen : seq.length = 2 ^ k + 1) (hs : s < k) (hr1 : 1 ≤ r) (hr2 : r ≤ 2 ^ k)
    (htop : (r - 1) % (2 * 2 ^ s) < 2 ^ s) :
    ∃ x y a b,
      seq[r]? = some x ∧ seq[r + 2 ^ s]? = some y
        ∧ workerCompute ⟨Real.pi, Real.cos, Real.sin⟩ seq (2 ^ s) r = some a
        ∧ workerCompute ⟨Real.pi, Real.cos, Real.sin⟩ seq (2 ^ s) (r + 2 ^ s) = some b
        ∧ toC a
            = toC x
              + (⟨Real.cos (Real.pi * (((r - 1) % (2 * 2 ^ s) : Nat) : ℝ) / (2 : ℝ) ^ s),
                  -Real.sin (Real.pi * (((r - 1) % (2 * 2 ^ s) : Nat) : ℝ) / (2 : ℝ) ^ s)⟩ : ℂ)
                * toC y
        ∧ toC b
            = toC x
              - (⟨Real.cos (Real.pi * (((r - 1) % (2 * 2 ^ s) : Nat) : ℝ) / (2 : ℝ) ^ s),
                  -Real.sin (Real.pi * (((r - 1) % (2 * 2 ^ s) : Nat) : ℝ) / (2 : ℝ) ^ s)⟩ : ℂ)
                * toC y := by
  rw [Nat.mul_comm 2 (2 ^ s)] at htop ⊢
  have hD : 0 < 2 ^ s := Nat.two_pow_pos s
  have hpart := top_partner_in_range k s (r - 1) hs (by omega) htop
  have hlt1 : r < seq.length := by omega
  have hlt2 : r + 2 ^ s < seq.length := by omega
  have hr : r - 1 + 1 = r := by omega
  have hr' : r - 1 + 2 ^ s + 1 = r + 2 ^ s := by omega
  have hmod' : (r - 1 + 2 ^ s) % (2 ^ s * 2) = (r - 1) % (2 ^ s * 2) + 2 ^ s := by
    rw [Nat.add_mod, Nat.mod_eq_of_lt (by omega : 2 ^ s < 2 ^ s * 2),
      Nat.mod_eq_of_lt (by omega)]
  have hcast : ((2 ^ s : Nat) : ℝ) = (2 : ℝ) ^ s := by push_cast; rfl
  have hp : (2 : ℝ) ^ s ≠ 0 := by positivity
  refine ⟨seq[r], seq[r + 2 ^ s], _, _, List.getElem?_eq_getElem hlt1,
    List.getElem?_eq_getElem hlt2,
    workerCompute_two_pow _ seq k s r hlen hs hr1 (by omega),
    workerCompute_two_pow _ seq k s (r + 2 ^ s) hlen hs (by omega) (by omega), ?_, ?_⟩
  · have h := toC_workerValue ⟨Real.pi, Real.cos, Real.sin⟩ seq (2 ^ s) (r - 1)
      Nat.one_le_two_pow
    rw [hr] at h
    rw [h]
    unfold butterflyStage
    rw [if_pos htop]
    unfold slotC
    rw [hr, hr', List.getD_eq_getElem _ _ hlt1, List.getD_eq_getElem _ _ hlt2, hcast]
    rfl
  · have h := toC_workerValue ⟨Real.pi, Real.cos, Real.sin⟩ seq (2 ^ s) (r - 1 + 2 ^ s)
      Nat.one_le_two_pow
    rw [hr'] at h
    rw [h]
    unfold butterflyStage
    rw [hmod', if_neg (by omega), Nat.add_sub_cancel]
    unfold slotC
    rw [hr, hr', List.getD_eq_getElem _ _ hlt1, List.getD_eq_getElem _ _ hlt2, hcast]
    have hθ : Real.pi * (((r - 1) % (2 ^ s * 2) + 2 ^ s : Nat) : ℝ) / (2 : ℝ) ^ s
        = Real.pi * (((r - 1) % (2 ^ s * 2) : Nat) : ℝ) / (2 : ℝ) ^ s + Real.pi := by
      push_cast
      field_simp
      ring
    show _ + twiddleC ⟨Real.pi, Real.cos, Real.sin⟩
        (Real.pi * (((r - 1) % (2 ^ s * 2) + 2 ^ s : Nat) : ℝ) / (2 : ℝ) ^ s) * _ = _
    rw [hθ, twiddleC_add_pi]
    ring

theorem worker_pair_butterfly_witness :
    ∃ x y a b,
      ([⟨0, 0⟩, ⟨1, 2⟩, ⟨3, 4⟩, ⟨5, 6⟩, ⟨7, 8⟩] : List (Complex ℝ))[2]? = some x
        ∧ ([⟨0, 0⟩, ⟨1, 2⟩, ⟨3, 4⟩, ⟨5, 6⟩, ⟨7, 8⟩] : List (Complex ℝ))[2 + 2 ^ 1]? = some y
        ∧ workerCompute ⟨Real.pi, Real.cos, Real.sin⟩
            [⟨0, 0⟩, ⟨1, 2⟩, ⟨3, 4⟩, ⟨5, 6⟩, ⟨7, 8⟩] (2 ^ 1) 2 = some a
        ∧ workerCompute ⟨Real.pi, Real.cos, Real.sin⟩
            [⟨0, 0⟩, ⟨1, 2⟩, ⟨3, 4⟩, ⟨5, 6⟩, ⟨7, 8⟩] (2 ^ 1) (2 + 2 ^ 1) = some b
        ∧ toC a
            = toC x
              + (⟨Real.cos (Real.pi * (((2 - 1) % (2 * 2 ^ 1) : Nat) : ℝ) / (2 : ℝ) ^ 1),
                  -Real.sin (Real.pi * (((2 - 1) % (2 * 2 ^ 1) : Nat) : ℝ) / (2 : ℝ) ^ 1)⟩ : ℂ)
                * toC y
        ∧ toC b
            = toC x
              - (⟨Real.cos (Real.pi * (((2 - 1) % (2 * 2 ^ 1) : Nat) : ℝ) / (2 : ℝ) ^ 1),
                  -Real.sin (Real.pi * (((2 - 1) % (2 * 2 ^ 1) : Nat) : ℝ) / (2 : ℝ) ^ 1)⟩ : ℂ)
                * toC y :=
  worker_pair_butterfly 2 1 2 [⟨0, 0⟩, ⟨1, 2⟩, ⟨3, 4⟩, ⟨5, 6⟩, ⟨7, 8⟩] rfl (by decide)
    (by decide) (by decide) (by decide)

/-! ## The imaginary parts of the input -/

theorem bitReversalStep_real_parts {R : Type} [Zero R] (input_values : List (Complex R))
    (input_size : Nat) (seq : List (Complex R)) :
    bitReversalStep input_values input_size seq
      = (List.range' 1 (input_size - 1)).foldlM
          (fun acc i =>
            (((input_values.map Complex.real)[reverseBits (i - 1) (log2f input_size) + 1]?).map
                fun x => (⟨x, 0⟩ : Complex R)).bind
              fun v => some (acc.set i v))
          seq := by
  rw [bitReversalStep_eq_fold]
  congr 1
  funext acc i
  rw [List.getElem?_map, Option.map_map]
  rfl

/-- Inputs with the same real parts give the same round-0 sequence and the
same final sequence. -/
theorem main_congr_real {R : Type} [Field R] (M : CMath R)
    (input_values other_values : List (Complex R))
    (h : input_values.map Complex.real = other_values.map Complex.real) :
    bitReversalStep input_values input_values.length (zeroBuffer input_values.length)
        = bitReversalStep other_values other_values.length (zeroBuffer other_values.length)
      ∧ main M input_values = main M other_values := by
  have hlen : input_values.length = other_values.length := by
    have := congrArg List.length h
    simpa using this
  have hstep : bitReversalStep input_values input_values.length
        (zeroBuffer input_values.length)
      = bitReversalStep other_values other_values.length
          (zeroBuffer other_values.length) := by
    rw [bitReversalStep_real_parts, bitReversalStep_real_parts, h, hlen]
  refine ⟨hstep, ?_⟩
  rw [main_eq, main_eq, hstep, hlen]

/-- C19: the imaginary parts of the input samples never influence the result:
two inputs of the same length whose samples have equal real parts give the
same round-0 sequence and the same final sequence; in particular two input
files whose pairs have equal first numbers give the same final sequence. -/
theorem imaginary_parts_ignored {R : Type} [Field R] (M : CMath R)
    (input_values other_values : List (Complex R))
    (hlen : input_values.length = other_values.length)
    (hreal : ∀ i, i < input_values.length →
      (input_values[i]?).map Complex.real = (other_values[i]?).map Complex.real) :
    bitReversalStep input_values input_values.length (zeroBuffer input_values.length)
        = bitReversalStep other_values other_values.length (zeroBuffer other_values.length)
      ∧ main M input_values = main M other_values
      ∧ ∀ pairs others : List (R × R), pairs.map Prod.fst = others.map Prod.fst →
          main M (getInputValues 0 (some (pairFields pairs)) 0 0).result
            = main M (getInputValues 0 (some (pairFields others)) 0 0).result := by
  have h : input_values.map Complex.real = other_values.map Complex.real := by
    apply List.ext_getElem?
    intro i
    rw [List.getElem?_map, List.getElem?_map]
    by_cases hi : i < input_values.length
    · exact hreal i hi
    · rw [List.getElem?_eq_none (by omega), List.getElem?_eq_none (by omega)]
  obtain ⟨h1, h2⟩ := main_congr_real M input_values other_values h
  refine ⟨h1, h2, ?_⟩
  intro pairs others hp
  rw [getInputValues_pairs, getInputValues_pairs]
  apply (main_congr_real M _ _ _).2
  simp only [List.map_cons, List.map_map]
  have e : (Complex.real ∘ fun p : R × R => (⟨p.1, p.2⟩ : Complex R)) = Prod.fst := rfl
  rw [e, hp]

theorem imaginary_parts_ignored_witness :
    bitReversalStep ([⟨0, 0⟩, ⟨1, 5⟩, ⟨2, 6⟩] : List (Complex ℚ)) 3 (zeroBuffer 3)
        = bitReversalStep ([⟨0, 0⟩, ⟨1, 0⟩, ⟨2, -1⟩] : List (Complex ℚ)) 3 (zeroBuffer 3)
      ∧ main (⟨0, id, id⟩ : CMath ℚ) [⟨0, 0⟩, ⟨1, 5⟩, ⟨2, 6⟩]
        = main (⟨0, id, id⟩ : CMath ℚ) [⟨0, 0⟩, ⟨1, 0⟩, ⟨2, -1⟩] :=
  have h := imaginary_parts_ignored (⟨0, id, id⟩ : CMath ℚ)
    [⟨0, 0⟩, ⟨1, 5⟩, ⟨2, 6⟩] [⟨0, 0⟩, ⟨1, 0⟩, ⟨2, -1⟩] rfl
    (by
      intro i hi
      have hi' : i < 3 := hi
      interval_cases i <;> rfl)
  ⟨h.1, h.2.1⟩

/-! ## The round loop as a state machine -/

end FftParallel
